import Mathlib

/-!
Verification of the incremental analysis and drift-evaluation pipeline of
`react-codebase-guru` against its natural-language specification.

The definitions below are a shallow embedding of the TypeScript sources:

* `src/performance/incrementalAnalyzer.ts` — `IncrementalAnalyzer`
  (`analyzeChangedFiles`, `updateDependencyGraph`, `invalidateDependents`,
  `cleanupCache`, `calculateFileHash`);
* `driftAnalyzer.ts` — `DriftAnalyzer.calculateComplianceScore` and
  `DriftAnalyzer.detectComponentDuplication`;
* `src/streaming/analysisStream.ts` — the metrics-history ring buffer of
  `AnalysisStream.updateMetrics` and the option defaulting of its constructor;
* `src/watcher/fileWatcher.ts` — the debounce bookkeeping of
  `FileWatcher.handleFileChange` / `processPendingChanges`.

JavaScript `Map`s (insertion-ordered, unique keys) are modelled as
association lists with JS `Map` semantics (`mapGet`, `mapSet`, `mapDelete`),
and JS `Set`s as insertion-ordered duplicate-free lists (`setAdd`,
`setDelete`).  File contents are abstracted by their SHA-256 digest: the
hash in `calculateFileHash` is a pure function of the bytes, so the
environment directly supplies `contentHash`.  `Date.now()` is modelled by a
logical clock `now` in the analyzer state that ticks on every cache write.
Asynchronous I/O is irrelevant here: `analyzeChangedFiles` awaits every
operation in program order, so the whole call is a sequential fold.
-/

/-! ## JS `Map` / `Set` model -/

/-- JS `Map.prototype.get`: the value bound to the first (on a real `Map`:
unique) occurrence of the key. -/
def mapGet {α : Type} : List (String × α) → String → Option α
  | [], _ => none
  | e :: m, k => if e.1 = k then some e.2 else mapGet m k

/-- JS `Map.prototype.set`: overwrite in place when the key is present, append
a fresh binding otherwise. -/
def mapSet {α : Type} : List (String × α) → String → α → List (String × α)
  | [], k, v => [(k, v)]
  | e :: m, k, v => if e.1 = k then (k, v) :: m else e :: mapSet m k v

/-- JS `Map.prototype.delete`: drop the binding of the key. -/
def mapDelete {α : Type} : List (String × α) → String → List (String × α)
  | [], _ => []
  | e :: m, k => if e.1 = k then mapDelete m k else e :: mapDelete m k

/-- JS `Set.prototype.add` on an insertion-ordered duplicate-free list. -/
def setAdd (s : List String) (x : String) : List String :=
  if x ∈ s then s else s ++ [x]

/-- JS `Set.prototype.delete`. -/
def setDelete : List String → String → List String
  | [], _ => []
  | y :: s, x => if y = x then setDelete s x else y :: setDelete s x

/-- The keys of an association list are pairwise distinct (always true for a
state built through `mapSet`/`mapDelete`, mirroring a JS `Map`). -/
def nodupKeys {α : Type} (m : List (String × α)) : Prop :=
  (m.map Prod.fst).Nodup

instance nodupKeysDecidable {α : Type} (m : List (String × α)) :
    Decidable (nodupKeys m) :=
  inferInstanceAs (Decidable (m.map Prod.fst).Nodup)

theorem mapGet_mapSet_self {α : Type} (m : List (String × α)) (k : String) (v : α) :
    mapGet (mapSet m k v) k = some v := by
  induction m with
  | nil => simp [mapGet, mapSet]
  | cons e m ih =>
    by_cases he : e.1 = k
    · simp [mapGet, mapSet, he]
    · simp [mapGet, mapSet, he, ih]

theorem mapGet_mapSet_ne {α : Type} (m : List (String × α)) (k k' : String) (v : α)
    (h : k' ≠ k) : mapGet (mapSet m k v) k' = mapGet m k' := by
  have h1 : ¬ (k = k') := fun hc => h hc.symm
  induction m with
  | nil => simp [mapGet, mapSet, h1]
  | cons e m ih =>
    by_cases he : e.1 = k
    · simp [mapGet, mapSet, he, h1]
    · by_cases he' : e.1 = k' <;> simp [mapGet, mapSet, he, he', h, ih]

theorem mapGet_mapDelete_self {α : Type} (m : List (String × α)) (k : String) :
    mapGet (mapDelete m k) k = none := by
  induction m with
  | nil => rfl
  | cons e m ih =>
    by_cases he : e.1 = k <;> simp [mapGet, mapDelete, he, ih]

theorem mapGet_mapDelete_ne {α : Type} (m : List (String × α)) (k k' : String)
    (h : k' ≠ k) : mapGet (mapDelete m k) k' = mapGet m k' := by
  have h1 : ¬ (k = k') := fun hc => h hc.symm
  induction m with
  | nil => rfl
  | cons e m ih =>
    by_cases he : e.1 = k
    · simp [mapGet, mapDelete, he, h1, ih]
    · by_cases he' : e.1 = k' <;> simp [mapGet, mapDelete, he, he', h, ih]

theorem mapGet_none_mapDelete {α : Type} (m : List (String × α)) (k k' : String)
    (h : mapGet m k = none) : mapGet (mapDelete m k') k = none := by
  by_cases hk : k = k'
  · rw [hk]; exact mapGet_mapDelete_self ..
  · rw [mapGet_mapDelete_ne _ _ _ hk]; exact h

theorem mapGet_foldl_mapDelete_mem {α : Type} (l : List String) (m : List (String × α))
    (k : String) (h : k ∈ l) : mapGet (l.foldl (fun c d => mapDelete c d) m) k = none := by
  induction l generalizing m with
  | nil => cases h
  | cons d l ih =>
    rcases List.mem_cons.mp h with rfl | hmem
    · simp only [List.foldl_cons]
      have hnone : ∀ (l' : List String) (m' : List (String × α)), mapGet m' k = none →
          mapGet (l'.foldl (fun c d => mapDelete c d) m') k = none := by
        intro l'
        induction l' with
        | nil => intro m' hm'; simpa using hm'
        | cons d' l' ih' =>
          intro m' hm'
          simp only [List.foldl_cons]
          exact ih' _ (mapGet_none_mapDelete _ _ _ hm')
      exact hnone _ _ (mapGet_mapDelete_self ..)
    · exact ih _ hmem

theorem mapGet_foldl_mapDelete_not_mem {α : Type} (l : List String) (m : List (String × α))
    (k : String) (h : k ∉ l) : mapGet (l.foldl (fun c d => mapDelete c d) m) k = mapGet m k := by
  induction l generalizing m with
  | nil => rfl
  | cons d l ih =>
    simp only [List.foldl_cons]
    have hd : k ≠ d := fun hc => h (hc ▸ List.mem_cons_self d l)
    rw [ih _ (fun hc => h (List.mem_cons_of_mem d hc)), mapGet_mapDelete_ne _ _ _ hd]

theorem setAdd_subset (s : List String) (x y : String) (h : y ∈ s) : y ∈ setAdd s x := by
  unfold setAdd
  by_cases hc : x ∈ s <;> simp [hc, h]

theorem mem_setAdd (s : List String) (x y : String) (h : y ∈ setAdd s x) :
    y ∈ s ∨ y = x := by
  unfold setAdd at h
  by_cases hc : x ∈ s
  · simp only [if_pos hc] at h; exact Or.inl h
  · simp only [if_neg hc, List.mem_append, List.mem_singleton] at h; exact h

theorem mem_setDelete_iff (s : List String) (x y : String) :
    y ∈ setDelete s x ↔ y ∈ s ∧ y ≠ x := by
  induction s with
  | nil => simp [setDelete]
  | cons z s ih =>
    simp only [setDelete]
    by_cases hz : z = x
    · rw [if_pos hz, ih]
      subst hz
      constructor
      · rintro ⟨hm, hne⟩; exact ⟨List.mem_cons_of_mem _ hm, hne⟩
      · rintro ⟨hm, hne⟩
        rcases List.mem_cons.mp hm with rfl | hm'
        · exact absurd rfl hne
        · exact ⟨hm', hne⟩
    · rw [if_neg hz]
      constructor
      · intro hm
        rcases List.mem_cons.mp hm with rfl | hm'
        · exact ⟨List.mem_cons_self _ _, hz⟩
        · rcases ih.mp hm' with ⟨h1, h2⟩
          exact ⟨List.mem_cons_of_mem _ h1, h2⟩
      · rintro ⟨hm, hne⟩
        rcases List.mem_cons.mp hm with rfl | hm'
        · exact List.mem_cons_self _ _
        · exact List.mem_cons_of_mem _ (ih.mpr ⟨hm', hne⟩)

/-! ## `IncrementalAnalyzer` (src/performance/incrementalAnalyzer.ts) -/

/-- Extractor output (`ComponentInfo | CSSAnalysisResult | HTMLAnalysisResult`).
Only the fields `analyzeChangedFiles` touches are kept: the declared
`dependencies` (read by `extractDependencies`), the length of
`JSON.stringify(result)` (read by `getCacheStats`/`cleanupCache`) and an
abstract tag standing for the remaining payload. -/
structure AnalysisResultE where
  deps : List String
  jsonLen : Nat
  tag : Nat
deriving DecidableEq

/-- The `FileHash` record of `calculateFileHash`. -/
structure FileHashE where
  filePath : String
  hash : Nat
  timestamp : Nat
  size : Nat
deriving DecidableEq

/-- The `CachedAnalysis` record. -/
structure CachedAnalysisE where
  filePath : String
  result : AnalysisResultE
  hash : Nat
  timestamp : Nat
  dependencies : List String
deriving DecidableEq

inductive ChangeTypeE where
  | added
  | modified
  | deleted
deriving DecidableEq

/-- The `AnalysisChange` record. -/
structure AnalysisChangeE where
  type : ChangeTypeE
  filePath : String
  result : Option AnalysisResultE
  oldResult : Option AnalysisResultE
deriving DecidableEq

/-- The file system and the extractors as seen by one `analyzeChangedFiles`
call: `pathExists` is `fs.pathExists`, `contentHash` the SHA-256 digest of
the current bytes (a pure function of content), `mtimeMs`/`fileSize` the
`fs.stat` data, and `analyze` the `analyzeFile` dispatch — `none` models a
thrown error (unsupported extension or analyzer failure). -/
structure FsEnv where
  pathExists : String → Bool
  contentHash : String → Nat
  mtimeMs : String → Nat
  fileSize : String → Nat
  analyze : String → Option AnalysisResultE

/-- The private mutable fields of `IncrementalAnalyzer`, plus the logical
clock standing for `Date.now()`. -/
structure AnalyzerStateE where
  fileHashes : List (String × FileHashE)
  analysisCache : List (String × CachedAnalysisE)
  dependencyGraph : List (String × List String)
  maxCacheSize : Nat
  now : Nat
deriving DecidableEq

/-- The `calculateFileHash` method. -/
def calculateFileHash (env : FsEnv) (p : String) : FileHashE :=
  { filePath := p
    hash := env.contentHash p
    timestamp := env.mtimeMs p
    size := env.fileSize p }

/-- The `extractDependencies` method: the `dependencies` field when present, else
`[]` (an absent field is the empty list here). -/
def extractDependencies (result : AnalysisResultE) : List String :=
  result.deps

/-- The clearing loop of `updateDependencyGraph`: remove `p` from every
dependents set, dropping sets that become empty. -/
def clearDependent (g : List (String × List String)) (p : String) :
    List (String × List String) :=
  (g.map (fun e => (e.1, setDelete e.2 p))).filter (fun e => !e.2.isEmpty)

/-- The insertion loop of `updateDependencyGraph`: for every declared
dependency `dep`, add `p` to the dependents set of `dep`, creating the set
when missing. -/
def addDependencyEdges (g : List (String × List String)) (deps : List String)
    (p : String) : List (String × List String) :=
  deps.foldl (fun acc dep =>
    match mapGet acc dep with
    | some s => mapSet acc dep (setAdd s p)
    | none => acc ++ [(dep, [p])]) g

/-- The `updateDependencyGraph` method. -/
def updateDependencyGraph (g : List (String × List String)) (p : String)
    (result : AnalysisResultE) : List (String × List String) :=
  addDependencyEdges (clearDependent g p) (extractDependencies result) p

/-- The dependents set recorded for `p` (empty when `p` is not a key). -/
def dependentsOf (g : List (String × List String)) (p : String) : List String :=
  (mapGet g p).getD []

/-- The `invalidateDependents` method: drop the cache entry of every direct dependent
of `p`.  Only `analysisCache` is touched — the graph and the hashes are
left alone. -/
def invalidateDependents (st : AnalyzerStateE) (p : String) : AnalyzerStateE :=
  match mapGet st.dependencyGraph p with
  | none => st
  | some dependents =>
    { st with analysisCache := dependents.foldl (fun c d => mapDelete c d) st.analysisCache }

/-- The guard `previousHash && currentHash.hash === previousHash.hash`. -/
def hashUnchanged (env : FsEnv) (st : AnalyzerStateE) (p : String) : Bool :=
  match mapGet st.fileHashes p with
  | some ph => env.contentHash p == ph.hash
  | none => false

/-- One iteration of the `for (const filePath of changedPaths)` loop of
`analyzeChangedFiles`, acting on the state and the accumulated `changes`. -/
def processOne (env : FsEnv) (st : AnalyzerStateE) (changes : List AnalysisChangeE)
    (p : String) : AnalyzerStateE × List AnalysisChangeE :=
  if env.pathExists p = false then
    match mapGet st.analysisCache p with
    | none => (st, changes)
    | some cached =>
      let changes1 := changes ++ [⟨ChangeTypeE.deleted, p, none, some cached.result⟩]
      let st1 := { st with
        fileHashes := mapDelete st.fileHashes p
        analysisCache := mapDelete st.analysisCache p }
      (invalidateDependents st1 p, changes1)
  else
    if hashUnchanged env st p then (st, changes)
    else
      match env.analyze p with
      | none => (st, changes)
      | some result =>
        let currentHash := calculateFileHash env p
        let isNew := (mapGet st.fileHashes p).isNone
        let oldResult := (mapGet st.analysisCache p).map (fun c => c.result)
        let entry : CachedAnalysisE :=
          { filePath := p
            result := result
            hash := currentHash.hash
            timestamp := st.now
            dependencies := extractDependencies result }
        let st1 := { st with
          fileHashes := mapSet st.fileHashes p currentHash
          analysisCache := mapSet st.analysisCache p entry
          now := st.now + 1 }
        let st2 := { st1 with
          dependencyGraph := updateDependencyGraph st1.dependencyGraph p result }
        (invalidateDependents st2 p,
         changes ++ [⟨if isNew then ChangeTypeE.added else ChangeTypeE.modified,
                      p, some result, oldResult⟩])

/-- The quantity `JSON.stringify(cached.result).length * 2`, the per-entry size used by
both `getCacheStats` and `cleanupCache`. -/
def entrySize (c : CachedAnalysisE) : Nat :=
  c.result.jsonLen * 2

/-- The `memoryUsage` figure of `getCacheStats`: the sum of the per-entry
sizes. -/
def memoryUsage (cache : List (String × CachedAnalysisE)) : Nat :=
  (cache.map (fun e => entrySize e.2)).sum

/-- Stable insertion of an entry into a list kept ascending by `timestamp`:
an element goes after every element whose timestamp is not larger.  Folding
it over the cache reproduces the stable ascending JS
`sort((a, b) => a[1].timestamp - b[1].timestamp)`. -/
def insertByTs (x : String × CachedAnalysisE) :
    List (String × CachedAnalysisE) → List (String × CachedAnalysisE)
  | [] => [x]
  | y :: ys => if x.2.timestamp < y.2.timestamp then x :: y :: ys else y :: insertByTs x ys

/-- The timestamp-ascending stable sort of the cache entries performed by
`cleanupCache`. -/
def sortByTs (l : List (String × CachedAnalysisE)) : List (String × CachedAnalysisE) :=
  l.foldl (fun acc x => insertByTs x acc) []

/-- The eviction loop of `cleanupCache`.  The break condition
`currentSize <= targetSize` with `targetSize = maxCacheSize * 0.8` is
rendered as `5 * currentSize ≤ 4 * maxCacheSize`: the operand is an
integer, `maxCacheSize * 0.8` has at most one decimal digit, and the
double-precision evaluation of `this.maxCacheSize * 0.8` is within
an ulp of the exact value, so no integer comparison distinguishes
them. -/
def evictGo (maxSize : Nat) :
    List (String × CachedAnalysisE) → Nat →
    List (String × CachedAnalysisE) → List (String × FileHashE) →
    List (String × CachedAnalysisE) × List (String × FileHashE)
  | [], _, cache, hashes => (cache, hashes)
  | e :: rest, cur, cache, hashes =>
    if 5 * cur ≤ 4 * maxSize then (cache, hashes)
    else evictGo maxSize rest (cur - entrySize e.2) (mapDelete cache e.1) (mapDelete hashes e.1)

/-- The `cleanupCache` method. -/
def cleanupCache (st : AnalyzerStateE) : AnalyzerStateE :=
  let usage := memoryUsage st.analysisCache
  if usage > st.maxCacheSize then
    let res := evictGo st.maxCacheSize (sortByTs st.analysisCache) usage
      st.analysisCache st.fileHashes
    { st with analysisCache := res.1, fileHashes := res.2 }
  else st

/-- The loop of `analyzeChangedFiles` over the whole batch. -/
def runBatch (env : FsEnv) (acc : AnalyzerStateE × List AnalysisChangeE)
    (paths : List String) : AnalyzerStateE × List AnalysisChangeE :=
  paths.foldl (fun a p => processOne env a.1 a.2 p) acc

/-- The `analyzeChangedFiles` method: fold the per-path processing over the batch,
then run `cleanupCache`, and return the new state with the collected
changes. -/
def analyzeChangedFiles (env : FsEnv) (st : AnalyzerStateE) (paths : List String) :
    AnalyzerStateE × List AnalysisChangeE :=
  let res := runBatch env (st, []) paths
  (cleanupCache res.1, res.2)

/-! ### Branch equations for `processOne` -/

theorem processOne_deleted_none (env : FsEnv) (st : AnalyzerStateE)
    (changes : List AnalysisChangeE) (p : String)
    (h1 : env.pathExists p = false) (h2 : mapGet st.analysisCache p = none) :
    processOne env st changes p = (st, changes) := by
  simp [processOne, h1, h2]

theorem processOne_deleted_some (env : FsEnv) (st : AnalyzerStateE)
    (changes : List AnalysisChangeE) (p : String) (cached : CachedAnalysisE)
    (h1 : env.pathExists p = false) (h2 : mapGet st.analysisCache p = some cached) :
    processOne env st changes p =
      (invalidateDependents
        { st with fileHashes := mapDelete st.fileHashes p
                  analysisCache := mapDelete st.analysisCache p } p,
       changes ++ [⟨ChangeTypeE.deleted, p, none, some cached.result⟩]) := by
  simp [processOne, h1, h2]

theorem processOne_skip (env : FsEnv) (st : AnalyzerStateE)
    (changes : List AnalysisChangeE) (p : String)
    (h1 : env.pathExists p = true) (h2 : hashUnchanged env st p = true) :
    processOne env st changes p = (st, changes) := by
  simp [processOne, h1, h2]

theorem processOne_fail (env : FsEnv) (st : AnalyzerStateE)
    (changes : List AnalysisChangeE) (p : String)
    (h1 : env.pathExists p = true) (h2 : hashUnchanged env st p = false)
    (h3 : env.analyze p = none) :
    processOne env st changes p = (st, changes) := by
  simp [processOne, h1, h2, h3]

/-- The state written by the success branch, before the final
`invalidateDependents`. -/
def successState (env : FsEnv) (st : AnalyzerStateE) (p : String)
    (result : AnalysisResultE) : AnalyzerStateE :=
  { st with
    fileHashes := mapSet st.fileHashes p (calculateFileHash env p)
    analysisCache := mapSet st.analysisCache p
      { filePath := p
        result := result
        hash := (calculateFileHash env p).hash
        timestamp := st.now
        dependencies := extractDependencies result }
    dependencyGraph := updateDependencyGraph st.dependencyGraph p result
    now := st.now + 1 }

theorem processOne_success (env : FsEnv) (st : AnalyzerStateE)
    (changes : List AnalysisChangeE) (p : String) (result : AnalysisResultE)
    (h1 : env.pathExists p = true) (h2 : hashUnchanged env st p = false)
    (h3 : env.analyze p = some result) :
    processOne env st changes p =
      (invalidateDependents (successState env st p result) p,
       changes ++ [⟨if (mapGet st.fileHashes p).isNone then ChangeTypeE.added
                    else ChangeTypeE.modified,
                    p, some result, (mapGet st.analysisCache p).map (fun c => c.result)⟩]) := by
  simp [processOne, h1, h2, h3, successState]

/-! ### Dependency-graph lemmas -/

theorem mapGet_some_mem {α : Type} (m : List (String × α)) (k : String) (v : α)
    (h : mapGet m k = some v) : (k, v) ∈ m := by
  induction m with
  | nil => cases h
  | cons e m ih =>
    by_cases he : e.1 = k
    · simp only [mapGet, if_pos he] at h
      have hv : e.2 = v := by injection h
      have he2 : e = (k, v) := by cases e; simp_all
      rw [← he2]
      exact List.mem_cons_self ..
    · simp only [mapGet, if_neg he] at h
      exact List.mem_cons_of_mem _ (ih h)

theorem mapGet_append_some {α : Type} (m₁ m₂ : List (String × α)) (k : String) (v : α)
    (h : mapGet m₁ k = some v) : mapGet (m₁ ++ m₂) k = some v := by
  induction m₁ with
  | nil => cases h
  | cons e m ih =>
    by_cases he : e.1 = k
    · simp only [mapGet, if_pos he] at h ⊢; exact h
    · simp only [mapGet, if_neg he] at h ⊢
      exact ih h

theorem mapGet_append_none {α : Type} (m₁ m₂ : List (String × α)) (k : String)
    (h : mapGet m₁ k = none) : mapGet (m₁ ++ m₂) k = mapGet m₂ k := by
  induction m₁ with
  | nil => rfl
  | cons e m ih =>
    by_cases he : e.1 = k
    · simp [mapGet, if_pos he] at h
    · simp only [List.cons_append, mapGet, if_neg he] at h ⊢
      exact ih h

theorem mem_mapSet {α : Type} (m : List (String × α)) (k : String) (v : α)
    (e : String × α) (h : e ∈ mapSet m k v) : e ∈ m ∨ e = (k, v) := by
  induction m with
  | nil => simpa [mapSet] using h
  | cons f m ih =>
    by_cases hf : f.1 = k
    · simp only [mapSet, if_pos hf, List.mem_cons] at h
      rcases h with rfl | hm
      · exact Or.inr rfl
      · exact Or.inl (List.mem_cons_of_mem _ hm)
    · simp only [mapSet, if_neg hf, List.mem_cons] at h
      rcases h with rfl | hm
      · exact Or.inl (List.mem_cons_self ..)
      · rcases ih hm with hm' | hm'
        · exact Or.inl (List.mem_cons_of_mem _ hm')
        · exact Or.inr hm'

/-- Every binding of the cleared graph comes from a binding of the original
graph with `p` removed from its dependents. -/
theorem mem_clearDependent (g : List (String × List String)) (p : String)
    (k : String) (s : List String) (h : (k, s) ∈ clearDependent g p) :
    ∃ s₀, (k, s₀) ∈ g ∧ s = setDelete s₀ p := by
  unfold clearDependent at h
  have h1 := List.mem_of_mem_filter h
  rcases List.mem_map.mp h1 with ⟨e, he, heq⟩
  exact ⟨e.2, by
    have h2 : e.1 = k := congrArg Prod.fst heq
    have h3 : setDelete e.2 p = s := congrArg Prod.snd heq
    constructor
    · rw [← h2]; simpa using he
    · exact h3.symm⟩

/-- Every member of a dependents set of `addDependencyEdges g deps p` is
either a member of a set bound to the same key in `g`, or is `p` itself with
the key among `deps`. -/
theorem mem_addDependencyEdges (deps : List String) (g : List (String × List String))
    (p k : String) (s : List String) (x : String)
    (h : (k, s) ∈ addDependencyEdges g deps p) (hx : x ∈ s) :
    (∃ s₀, (k, s₀) ∈ g ∧ x ∈ s₀) ∨ (x = p ∧ k ∈ deps) := by
  induction deps generalizing g with
  | nil => exact Or.inl ⟨s, h, hx⟩
  | cons dep rest ih =>
    simp only [addDependencyEdges, List.foldl_cons] at h
    have hstep := ih _ (by simpa [addDependencyEdges] using h)
    rcases hstep with ⟨s₀, hs₀, hxs₀⟩ | ⟨hxp, hk⟩
    · cases hget : mapGet g dep with
      | some sv =>
        rw [hget] at hs₀
        rcases mem_mapSet _ _ _ _ hs₀ with hm | heq
        · exact Or.inl ⟨s₀, hm, hxs₀⟩
        · have hk : k = dep := congrArg Prod.fst heq
          have hv : s₀ = setAdd sv p := congrArg Prod.snd heq
          subst hk
          rcases mem_setAdd _ _ _ (hv ▸ hxs₀) with hm | rfl
          · exact Or.inl ⟨sv, mapGet_some_mem _ _ _ hget, hm⟩
          · exact Or.inr ⟨rfl, List.mem_cons_self ..⟩
      | none =>
        rw [hget] at hs₀
        rcases List.mem_append.mp hs₀ with hm | hm
        · exact Or.inl ⟨s₀, hm, hxs₀⟩
        · have heq : (k, s₀) = (dep, [p]) := List.mem_singleton.mp hm
          have hk : k = dep := congrArg Prod.fst heq
          have hv : s₀ = [p] := congrArg Prod.snd heq
          subst hk
          rcases List.mem_singleton.mp (hv ▸ hxs₀) with rfl
          exact Or.inr ⟨rfl, List.mem_cons_self ..⟩
    · exact Or.inr ⟨hxp, List.mem_cons_of_mem _ hk⟩

/-- Membership in a dependents set is preserved by `addDependencyEdges` at
the level of `mapGet`. -/
theorem dependentsOf_addDependencyEdges_mono (deps : List String)
    (g : List (String × List String)) (p k x : String)
    (h : x ∈ dependentsOf g k) : x ∈ dependentsOf (addDependencyEdges g deps p) k := by
  induction deps generalizing g with
  | nil => exact h
  | cons dep rest ih =>
    simp only [addDependencyEdges, List.foldl_cons]
    apply ih
    unfold dependentsOf at h ⊢
    cases hget : mapGet g k with
    | none => rw [hget] at h; cases h
    | some s =>
      rw [hget] at h
      simp only [Option.getD_some] at h
      cases hgd : mapGet g dep with
      | some sv =>
        by_cases hkd : k = dep
        · subst hkd
          rw [hget] at hgd
          cases hgd
          rw [mapGet_mapSet_self]
          exact setAdd_subset _ _ _ h
        · rw [mapGet_mapSet_ne _ _ _ _ hkd, hget]
          exact h
      | none =>
        rw [mapGet_append_some _ _ _ _ hget]
        exact h

theorem clearDependent_cons (e : String × List String)
    (g : List (String × List String)) (q : String) :
    clearDependent (e :: g) q =
      if (setDelete e.2 q).isEmpty then clearDependent g q
      else (e.1, setDelete e.2 q) :: clearDependent g q := by
  unfold clearDependent
  simp only [List.map_cons, List.filter_cons]
  cases hne : (setDelete e.2 q).isEmpty <;> simp [hne]

/-- Membership in a dependents set survives the clearing loop as long as the
member is not the cleared path. -/
theorem dependentsOf_clearDependent_mono (g : List (String × List String))
    (q k x : String) (h : x ∈ dependentsOf g k) (hx : x ≠ q) :
    x ∈ dependentsOf (clearDependent g q) k := by
  induction g with
  | nil => cases h
  | cons e g ih =>
    rw [clearDependent_cons]
    by_cases he : e.1 = k
    · have hval : dependentsOf (e :: g) k = e.2 := by
        unfold dependentsOf; simp [mapGet, he]
      rw [hval] at h
      have hmem : x ∈ setDelete e.2 q := (mem_setDelete_iff _ _ _).mpr ⟨h, hx⟩
      have hne : (setDelete e.2 q).isEmpty = false := by
        cases hs : setDelete e.2 q with
        | nil => rw [hs] at hmem; cases hmem
        | cons a l => rfl
      rw [hne]
      unfold dependentsOf
      simp [mapGet, he, hmem]
    · have hval : dependentsOf (e :: g) k = dependentsOf g k := by
        unfold dependentsOf; simp [mapGet, he]
      rw [hval] at h
      have hrec := ih h
      by_cases hne : (setDelete e.2 q).isEmpty
      · rw [if_pos hne]; exact hrec
      · rw [if_neg hne]
        unfold dependentsOf
        simpa [mapGet, he] using hrec

/-- Predicate `graphOnly g p ds`: every dependents set of `g` containing `p` belongs
to a key in `ds` — i.e. the graph records `p` as a dependent only of the
paths in `ds`. -/
def graphOnly (g : List (String × List String)) (p : String) (ds : List String) : Prop :=
  ∀ k s, (k, s) ∈ g → p ∈ s → k ∈ ds

theorem graphOnly_dependentsOf (g : List (String × List String)) (p : String)
    (ds : List String) (h : graphOnly g p ds) (k : String)
    (hk : p ∈ dependentsOf g k) : k ∈ ds := by
  unfold dependentsOf at hk
  cases hget : mapGet g k with
  | none => rw [hget] at hk; cases hk
  | some s =>
    rw [hget] at hk
    exact h k s (mapGet_some_mem _ _ _ hget) hk

/-- After a path re-analyzes with result `r`, the rebuilt graph records it
as a dependent exactly of paths among `r`'s declared dependencies. -/
theorem graphOnly_update_self (g : List (String × List String)) (p : String)
    (r : AnalysisResultE) :
    graphOnly (updateDependencyGraph g p r) p (extractDependencies r) := by
  intro k s hmem hp
  rcases mem_addDependencyEdges _ _ _ _ _ _ hmem hp with ⟨s₀, hs₀, hps₀⟩ | ⟨_, hk⟩
  · rcases mem_clearDependent _ _ _ _ hs₀ with ⟨s₁, _, rfl⟩
    exact absurd rfl ((mem_setDelete_iff _ _ _).mp hps₀).2
  · exact hk

/-- Updating the graph for a different path `q` cannot add `p` as a
dependent anywhere: `graphOnly` for `p` is preserved. -/
theorem graphOnly_update_other (g : List (String × List String)) (p q : String)
    (r : AnalysisResultE) (ds : List String) (h : graphOnly g p ds) (hpq : p ≠ q) :
    graphOnly (updateDependencyGraph g q r) p ds := by
  intro k s hmem hp
  rcases mem_addDependencyEdges _ _ _ _ _ _ hmem hp with ⟨s₀, hs₀, hps₀⟩ | ⟨hpq', _⟩
  · rcases mem_clearDependent _ _ _ _ hs₀ with ⟨s₁, hs₁, rfl⟩
    exact h k s₁ hs₁ ((mem_setDelete_iff _ _ _).mp hps₀).1
  · exact absurd hpq' hpq

/-- Membership of `x ≠ q` in the dependents set of `k` survives a graph
update for `q`. -/
theorem dependentsOf_update_mono (g : List (String × List String))
    (q k x : String) (r : AnalysisResultE)
    (h : x ∈ dependentsOf g k) (hx : x ≠ q) :
    x ∈ dependentsOf (updateDependencyGraph g q r) k :=
  dependentsOf_addDependencyEdges_mono _ _ _ _ _
    (dependentsOf_clearDependent_mono _ _ _ _ h hx)

/-! ### Stability of a freshly written cache entry (claims C1 and C4) -/

/-- The conditions under which a cache entry for `p` cannot be disturbed by
processing other paths: the entry and hash are present, and the dependency
graph registers `p` as a dependent only of paths in `ds`. -/
def entryIntact (st : AnalyzerStateE) (p : String) (e : CachedAnalysisE)
    (fh : FileHashE) (ds : List String) : Prop :=
  mapGet st.analysisCache p = some e ∧
  mapGet st.fileHashes p = some fh ∧
  graphOnly st.dependencyGraph p ds

theorem invalidateDependents_analysisCache_of_not_dependent (st : AnalyzerStateE)
    (q p : String) (hnd : p ∉ dependentsOf st.dependencyGraph q) :
    mapGet (invalidateDependents st q).analysisCache p = mapGet st.analysisCache p := by
  unfold invalidateDependents
  cases hget : mapGet st.dependencyGraph q with
  | none => rfl
  | some dependents =>
    have : p ∉ dependents := by
      unfold dependentsOf at hnd
      rw [hget] at hnd
      exact hnd
    exact mapGet_foldl_mapDelete_not_mem _ _ _ this

theorem invalidateDependents_fileHashes (st : AnalyzerStateE) (q : String) :
    (invalidateDependents st q).fileHashes = st.fileHashes := by
  unfold invalidateDependents
  cases mapGet st.dependencyGraph q <;> rfl

theorem invalidateDependents_dependencyGraph (st : AnalyzerStateE) (q : String) :
    (invalidateDependents st q).dependencyGraph = st.dependencyGraph := by
  unfold invalidateDependents
  cases mapGet st.dependencyGraph q <;> rfl

theorem invalidateDependents_maxCacheSize (st : AnalyzerStateE) (q : String) :
    (invalidateDependents st q).maxCacheSize = st.maxCacheSize := by
  unfold invalidateDependents
  cases mapGet st.dependencyGraph q <;> rfl

/-- Processing any path `q` with `q ≠ p` and `q ∉ ds` leaves an intact
entry for `p` intact: the deletion branch and the success branch can only
remove `p`'s entry through `invalidateDependents q`, which `graphOnly`
rules out. -/
theorem processOne_preserves_intact (env : FsEnv) (st : AnalyzerStateE)
    (changes : List AnalysisChangeE) (q p : String) (e : CachedAnalysisE)
    (fh : FileHashE) (ds : List String)
    (hqp : q ≠ p) (hqds : q ∉ ds) (h : entryIntact st p e fh ds) :
    entryIntact (processOne env st changes q).1 p e fh ds := by
  obtain ⟨hc, hh, hg⟩ := h
  have hpq : p ≠ q := fun hc' => hqp hc'.symm
  by_cases hex : env.pathExists q = false
  · cases hget : mapGet st.analysisCache q with
    | none => rw [processOne_deleted_none env st changes q hex hget]; exact ⟨hc, hh, hg⟩
    | some cached =>
      rw [processOne_deleted_some env st changes q cached hex hget]
      set st1 : AnalyzerStateE :=
        { st with fileHashes := mapDelete st.fileHashes q
                  analysisCache := mapDelete st.analysisCache q } with hst1
      have hnd : p ∉ dependentsOf st1.dependencyGraph q := by
        intro hmem
        exact hqds (graphOnly_dependentsOf _ _ _ hg q hmem)
      refine ⟨?_, ?_, ?_⟩
      · rw [invalidateDependents_analysisCache_of_not_dependent _ _ _ hnd]
        show mapGet (mapDelete st.analysisCache q) p = some e
        rw [mapGet_mapDelete_ne _ _ _ hpq]
        exact hc
      · rw [invalidateDependents_fileHashes]
        show mapGet (mapDelete st.fileHashes q) p = some fh
        rw [mapGet_mapDelete_ne _ _ _ hpq]
        exact hh
      · rw [invalidateDependents_dependencyGraph]
        exact hg
  · have hex' : env.pathExists q = true := by
      cases hval : env.pathExists q
      · exact absurd hval hex
      · rfl
    by_cases hskip : hashUnchanged env st q = true
    · rw [processOne_skip env st changes q hex' hskip]; exact ⟨hc, hh, hg⟩
    · have hskip' : hashUnchanged env st q = false := by
        cases hval : hashUnchanged env st q
        · rfl
        · exact absurd hval hskip
      cases hres : env.analyze q with
      | none => rw [processOne_fail env st changes q hex' hskip' hres]; exact ⟨hc, hh, hg⟩
      | some result =>
        rw [processOne_success env st changes q result hex' hskip' hres]
        have hg2 : graphOnly (successState env st q result).dependencyGraph p ds :=
          graphOnly_update_other _ _ _ _ _ hg hpq
        have hnd : p ∉ dependentsOf (successState env st q result).dependencyGraph q := by
          intro hmem
          exact hqds (graphOnly_dependentsOf _ _ _ hg2 q hmem)
        refine ⟨?_, ?_, ?_⟩
        · rw [invalidateDependents_analysisCache_of_not_dependent _ _ _ hnd]
          show mapGet (mapSet st.analysisCache q _) p = some e
          rw [mapGet_mapSet_ne _ _ _ _ hpq]
          exact hc
        · rw [invalidateDependents_fileHashes]
          show mapGet (mapSet st.fileHashes q _) p = some fh
          rw [mapGet_mapSet_ne _ _ _ _ hpq]
          exact hh
        · rw [invalidateDependents_dependencyGraph]
          exact hg2

/-- An intact entry survives the remainder of the batch as long as the
remaining paths are neither `p` itself nor among `p`'s declared
dependencies. -/
theorem runBatch_preserves_intact (env : FsEnv) (rest : List String) :
    ∀ (st : AnalyzerStateE) (changes : List AnalysisChangeE) (p : String)
      (e : CachedAnalysisE) (fh : FileHashE) (ds : List String),
      (∀ q ∈ rest, q ≠ p ∧ q ∉ ds) → entryIntact st p e fh ds →
      entryIntact (runBatch env (st, changes) rest).1 p e fh ds := by
  induction rest with
  | nil => intro st changes p e fh ds _ h; exact h
  | cons q rest ih =>
    intro st changes p e fh ds hq h
    have hstep := processOne_preserves_intact env st changes q p e fh ds
      (hq q (List.mem_cons_self ..)).1 (hq q (List.mem_cons_self ..)).2 h
    have hrest : ∀ q' ∈ rest, q' ≠ p ∧ q' ∉ ds :=
      fun q' hq' => hq q' (List.mem_cons_of_mem _ hq')
    unfold runBatch at ih ⊢
    simp only [List.foldl_cons]
    exact ih _ _ p e fh ds hrest hstep

/-! ### Key uniqueness is preserved by every cache operation -/

theorem mem_keys_mapSet {α : Type} (m : List (String × α)) (k : String) (v : α)
    (x : String) (h : x ∈ (mapSet m k v).map Prod.fst) :
    x ∈ m.map Prod.fst ∨ x = k := by
  rcases List.mem_map.mp h with ⟨e, he, rfl⟩
  rcases mem_mapSet _ _ _ _ he with hm | rfl
  · exact Or.inl (List.mem_map_of_mem _ hm)
  · exact Or.inr rfl

theorem nodupKeys_mapSet {α : Type} (m : List (String × α)) (k : String) (v : α)
    (h : nodupKeys m) : nodupKeys (mapSet m k v) := by
  induction m with
  | nil => simp [mapSet, nodupKeys]
  | cons e m ih =>
    unfold nodupKeys at h ⊢
    simp only [List.map_cons, List.nodup_cons] at h
    by_cases he : e.1 = k
    · simp only [mapSet, if_pos he, List.map_cons, List.nodup_cons]
      exact ⟨he ▸ h.1, h.2⟩
    · simp only [mapSet, if_neg he, List.map_cons, List.nodup_cons]
      refine ⟨?_, ih h.2⟩
      intro hmem
      rcases mem_keys_mapSet _ _ _ _ hmem with hm | hm
      · exact h.1 hm
      · exact he hm

theorem keys_mapDelete_sublist {α : Type} (m : List (String × α)) (k : String) :
    ((mapDelete m k).map Prod.fst).Sublist (m.map Prod.fst) := by
  induction m with
  | nil => simp [mapDelete]
  | cons e m ih =>
    by_cases he : e.1 = k
    · simp only [mapDelete, if_pos he, List.map_cons]
      exact ih.cons _
    · simp only [mapDelete, if_neg he, List.map_cons]
      exact ih.cons₂ _

theorem nodupKeys_mapDelete {α : Type} (m : List (String × α)) (k : String)
    (h : nodupKeys m) : nodupKeys (mapDelete m k) :=
  (keys_mapDelete_sublist m k).nodup h

theorem nodupKeys_foldl_mapDelete {α : Type} (l : List String) (m : List (String × α))
    (h : nodupKeys m) : nodupKeys (l.foldl (fun c d => mapDelete c d) m) := by
  induction l generalizing m with
  | nil => exact h
  | cons d l ih =>
    simp only [List.foldl_cons]
    exact ih _ (nodupKeys_mapDelete _ _ h)

theorem nodupKeys_invalidateDependents (st : AnalyzerStateE) (q : String)
    (h : nodupKeys st.analysisCache) :
    nodupKeys (invalidateDependents st q).analysisCache := by
  unfold invalidateDependents
  cases mapGet st.dependencyGraph q with
  | none => exact h
  | some dependents => exact nodupKeys_foldl_mapDelete _ _ h

theorem processOne_nodupKeys (env : FsEnv) (st : AnalyzerStateE)
    (changes : List AnalysisChangeE) (p : String) (h : nodupKeys st.analysisCache) :
    nodupKeys (processOne env st changes p).1.analysisCache := by
  by_cases hex : env.pathExists p = false
  · cases hget : mapGet st.analysisCache p with
    | none => rw [processOne_deleted_none env st changes p hex hget]; exact h
    | some cached =>
      rw [processOne_deleted_some env st changes p cached hex hget]
      exact nodupKeys_invalidateDependents _ _ (nodupKeys_mapDelete _ _ h)
  · have hex' : env.pathExists p = true := by
      cases hval : env.pathExists p
      · exact absurd hval hex
      · rfl
    by_cases hskip : hashUnchanged env st p = true
    · rw [processOne_skip env st changes p hex' hskip]; exact h
    · have hskip' : hashUnchanged env st p = false := by
        cases hval : hashUnchanged env st p
        · rfl
        · exact absurd hval hskip
      cases hres : env.analyze p with
      | none => rw [processOne_fail env st changes p hex' hskip' hres]; exact h
      | some result =>
        rw [processOne_success env st changes p result hex' hskip' hres]
        exact nodupKeys_invalidateDependents _ _ (nodupKeys_mapSet _ _ _ h)

theorem processOne_maxCacheSize (env : FsEnv) (st : AnalyzerStateE)
    (changes : List AnalysisChangeE) (p : String) :
    (processOne env st changes p).1.maxCacheSize = st.maxCacheSize := by
  by_cases hex : env.pathExists p = false
  · cases hget : mapGet st.analysisCache p with
    | none => rw [processOne_deleted_none env st changes p hex hget]
    | some cached =>
      rw [processOne_deleted_some env st changes p cached hex hget]
      rw [invalidateDependents_maxCacheSize]
  · have hex' : env.pathExists p = true := by
      cases hval : env.pathExists p
      · exact absurd hval hex
      · rfl
    by_cases hskip : hashUnchanged env st p = true
    · rw [processOne_skip env st changes p hex' hskip]
    · have hskip' : hashUnchanged env st p = false := by
        cases hval : hashUnchanged env st p
        · rfl
        · exact absurd hval hskip
      cases hres : env.analyze p with
      | none => rw [processOne_fail env st changes p hex' hskip' hres]
      | some result =>
        rw [processOne_success env st changes p result hex' hskip' hres]
        rw [invalidateDependents_maxCacheSize]
        rfl

theorem runBatch_nodupKeys (env : FsEnv) (paths : List String) :
    ∀ (st : AnalyzerStateE) (changes : List AnalysisChangeE),
      nodupKeys st.analysisCache →
      nodupKeys (runBatch env (st, changes) paths).1.analysisCache := by
  induction paths with
  | nil => intro st changes h; exact h
  | cons p paths ih =>
    intro st changes h
    unfold runBatch at ih ⊢
    simp only [List.foldl_cons]
    exact ih _ _ (processOne_nodupKeys env st changes p h)

theorem runBatch_maxCacheSize (env : FsEnv) (paths : List String) :
    ∀ (st : AnalyzerStateE) (changes : List AnalysisChangeE),
      (runBatch env (st, changes) paths).1.maxCacheSize = st.maxCacheSize := by
  induction paths with
  | nil => intro st changes; rfl
  | cons p paths ih =>
    intro st changes
    unfold runBatch at ih ⊢
    simp only [List.foldl_cons]
    rw [ih]
    exact processOne_maxCacheSize env st changes p

/-! ### Eviction: sorting and the cleanup loop -/

theorem memoryUsage_cons (e : String × CachedAnalysisE)
    (l : List (String × CachedAnalysisE)) :
    memoryUsage (e :: l) = entrySize e.2 + memoryUsage l := by
  simp [memoryUsage]

theorem memoryUsage_perm (l₁ l₂ : List (String × CachedAnalysisE)) (h : l₁.Perm l₂) :
    memoryUsage l₁ = memoryUsage l₂ := by
  unfold memoryUsage
  exact List.Perm.sum_eq
    (List.Perm.map (fun e : String × CachedAnalysisE => entrySize e.2) h)

theorem insertByTs_perm (x : String × CachedAnalysisE)
    (l : List (String × CachedAnalysisE)) : (insertByTs x l).Perm (x :: l) := by
  induction l with
  | nil => exact List.Perm.refl _
  | cons y ys ih =>
    unfold insertByTs
    by_cases hlt : x.2.timestamp < y.2.timestamp
    · rw [if_pos hlt]
    · rw [if_neg hlt]
      exact (ih.cons y).trans (List.Perm.swap x y ys)

theorem sortByTs_go_perm (l : List (String × CachedAnalysisE)) :
    ∀ acc, (l.foldl (fun acc x => insertByTs x acc) acc).Perm (acc ++ l) := by
  induction l with
  | nil => intro acc; simp
  | cons x l ih =>
    intro acc
    simp only [List.foldl_cons]
    refine (ih (insertByTs x acc)).trans ?_
    refine (((insertByTs_perm x acc).append_right l).trans ?_)
    exact List.perm_middle.symm

theorem sortByTs_perm (l : List (String × CachedAnalysisE)) : (sortByTs l).Perm l := by
  simpa using sortByTs_go_perm l []

theorem insertByTs_pairwise (x : String × CachedAnalysisE)
    (l : List (String × CachedAnalysisE))
    (h : l.Pairwise (fun a b => a.2.timestamp ≤ b.2.timestamp)) :
    (insertByTs x l).Pairwise (fun a b => a.2.timestamp ≤ b.2.timestamp) := by
  induction l with
  | nil => simp [insertByTs]
  | cons y ys ih =>
    rcases List.pairwise_cons.mp h with ⟨hy, hys⟩
    unfold insertByTs
    by_cases hlt : x.2.timestamp < y.2.timestamp
    · rw [if_pos hlt]
      refine List.pairwise_cons.mpr ⟨?_, h⟩
      intro z hz
      rcases List.mem_cons.mp hz with rfl | hz'
      · exact le_of_lt hlt
      · exact le_trans (le_of_lt hlt) (hy z hz')
    · rw [if_neg hlt]
      refine List.pairwise_cons.mpr ⟨?_, ih hys⟩
      intro z hz
      rcases List.mem_cons.mp ((insertByTs_perm x ys).mem_iff.mp hz) with rfl | hz'
      · exact Nat.le_of_not_lt hlt
      · exact hy z hz'

theorem sortByTs_pairwise (l : List (String × CachedAnalysisE)) :
    (sortByTs l).Pairwise (fun a b => a.2.timestamp ≤ b.2.timestamp) := by
  unfold sortByTs
  have hgen : ∀ (l' : List (String × CachedAnalysisE))
      (acc : List (String × CachedAnalysisE)),
      acc.Pairwise (fun a b => a.2.timestamp ≤ b.2.timestamp) →
      (l'.foldl (fun acc x => insertByTs x acc) acc).Pairwise
        (fun a b => a.2.timestamp ≤ b.2.timestamp) := by
    intro l'
    induction l' with
    | nil => intro acc h; exact h
    | cons x l' ih =>
      intro acc h
      simp only [List.foldl_cons]
      exact ih _ (insertByTs_pairwise x acc h)
  exact hgen l [] (List.Pairwise.nil)

theorem mapDelete_eq_filter {α : Type} (m : List (String × α)) (k : String) :
    mapDelete m k = m.filter (fun x => decide (x.1 ≠ k)) := by
  induction m with
  | nil => rfl
  | cons e m ih =>
    by_cases he : e.1 = k <;> simp [mapDelete, he, ih, List.filter_cons]

theorem mapDelete_perm_of_head (cache : List (String × CachedAnalysisE))
    (e : String × CachedAnalysisE) (rest : List (String × CachedAnalysisE))
    (hnod : nodupKeys cache) (hperm : cache.Perm (e :: rest)) :
    (mapDelete cache e.1).Perm rest := by
  have hkeys : ((e :: rest).map Prod.fst).Nodup :=
    ((hperm.map Prod.fst).nodup_iff).mp hnod
  simp only [List.map_cons, List.nodup_cons] at hkeys
  have hnotin : e.1 ∉ rest.map Prod.fst := hkeys.1
  rw [mapDelete_eq_filter]
  have h1 : (cache.filter (fun x => decide (x.1 ≠ e.1))).Perm
      ((e :: rest).filter (fun x => decide (x.1 ≠ e.1))) := hperm.filter _
  have h2 : (e :: rest).filter (fun x => decide (x.1 ≠ e.1)) = rest := by
    rw [List.filter_cons]
    have hfalse : (decide (e.1 ≠ e.1)) = false := by simp
    rw [hfalse]
    simp only [Bool.false_eq_true, if_false]
    apply List.filter_eq_self.mpr
    intro a ha
    simp only [decide_eq_true_eq]
    intro hcon
    exact hnotin (hcon ▸ List.mem_map_of_mem Prod.fst ha)
  rw [h2] at h1
  exact h1

/-- Full characterization of the eviction loop: starting from a cache that
is a permutation of the (sorted) work list `s` with true usage as the byte
counter, the loop removes exactly a minimal prefix of `s` whose removal
brings usage to at most 80% of the budget. -/
theorem evictGo_spec (maxSize : Nat) (s : List (String × CachedAnalysisE)) :
    ∀ (cache : List (String × CachedAnalysisE)) (hashes : List (String × FileHashE)),
      nodupKeys cache → cache.Perm s →
      ∃ k, k ≤ s.length ∧
        ((evictGo maxSize s (memoryUsage cache) cache hashes).1).Perm (s.drop k) ∧
        5 * memoryUsage (evictGo maxSize s (memoryUsage cache) cache hashes).1 ≤
          4 * maxSize ∧
        (∀ j, j < k → 4 * maxSize < 5 * memoryUsage (s.drop j)) := by
  induction s with
  | nil =>
    intro cache hashes _ hperm
    have hzero : memoryUsage cache = 0 := by
      rw [memoryUsage_perm _ _ hperm]; rfl
    refine ⟨0, Nat.le_refl _, ?_, ?_, ?_⟩
    · simpa [evictGo] using hperm
    · simp only [evictGo]
      rw [memoryUsage_perm _ _ hperm]
      simp [memoryUsage]
    · intro j hj; omega
  | cons e rest ih =>
    intro cache hashes hnod hperm
    by_cases hbreak : 5 * memoryUsage cache ≤ 4 * maxSize
    · refine ⟨0, Nat.zero_le _, ?_, ?_, ?_⟩
      · simpa [evictGo, hbreak] using hperm
      · simp [evictGo, hbreak]
      · intro j hj; omega
    · have hdel : (mapDelete cache e.1).Perm rest := mapDelete_perm_of_head _ _ _ hnod hperm
      have husage : memoryUsage cache = entrySize e.2 + memoryUsage rest := by
        rw [memoryUsage_perm _ _ hperm, memoryUsage_cons]
      have husage' : memoryUsage (mapDelete cache e.1) = memoryUsage cache - entrySize e.2 := by
        rw [memoryUsage_perm _ _ hdel]; omega
      have hnod' : nodupKeys (mapDelete cache e.1) := nodupKeys_mapDelete _ _ hnod
      obtain ⟨k, hk, hpermk, hbound, hmin⟩ :=
        ih (mapDelete cache e.1) (mapDelete hashes e.1) hnod' hdel
      have hstep : evictGo maxSize (e :: rest) (memoryUsage cache) cache hashes =
          evictGo maxSize rest (memoryUsage (mapDelete cache e.1))
            (mapDelete cache e.1) (mapDelete hashes e.1) := by
        rw [husage']
        simp [evictGo, hbreak]
      refine ⟨k + 1, Nat.succ_le_succ hk, ?_, ?_, ?_⟩
      · rw [hstep]
        simpa using hpermk
      · rw [hstep]
        exact hbound
      · intro j hj
        cases j with
        | zero =>
          simp only [List.drop_zero]
          rw [← memoryUsage_perm _ _ hperm]
          omega
        | succ j' =>
          simp only [List.drop_succ_cons]
          exact hmin j' (Nat.lt_of_succ_lt_succ hj)

/-- After `cleanupCache`, the measured usage never exceeds the budget:
either the cleanup was not triggered (usage was already within budget) or
the eviction loop ran until usage dropped to at most 80% of it. -/
theorem cleanupCache_usage_le (st : AnalyzerStateE) (hnod : nodupKeys st.analysisCache) :
    memoryUsage (cleanupCache st).analysisCache ≤ st.maxCacheSize := by
  unfold cleanupCache
  by_cases htrig : memoryUsage st.analysisCache > st.maxCacheSize
  · simp only [if_pos htrig]
    obtain ⟨k, _, _, hbound, _⟩ :=
      evictGo_spec st.maxCacheSize (sortByTs st.analysisCache) st.analysisCache
        st.fileHashes hnod (sortByTs_perm _).symm
    omega
  · simp only [if_neg htrig]
    omega

/-- When triggered, `cleanupCache` evicts a minimal prefix of the
timestamp-sorted entry list. -/
theorem cleanupCache_evicts_oldest_first (st : AnalyzerStateE)
    (hnod : nodupKeys st.analysisCache)
    (htrig : memoryUsage st.analysisCache > st.maxCacheSize) :
    ∃ k, k ≤ (sortByTs st.analysisCache).length ∧
      ((cleanupCache st).analysisCache).Perm ((sortByTs st.analysisCache).drop k) ∧
      5 * memoryUsage (cleanupCache st).analysisCache ≤ 4 * st.maxCacheSize ∧
      (∀ j, j < k → 4 * st.maxCacheSize < 5 * memoryUsage ((sortByTs st.analysisCache).drop j)) := by
  obtain ⟨k, hk, hperm, hbound, hmin⟩ :=
    evictGo_spec st.maxCacheSize (sortByTs st.analysisCache) st.analysisCache
      st.fileHashes hnod (sortByTs_perm _).symm
  refine ⟨k, hk, ?_, ?_, hmin⟩
  · unfold cleanupCache
    simp only [if_pos htrig]
    exact hperm
  · unfold cleanupCache
    simp only [if_pos htrig]
    exact hbound

/-! ## `DriftAnalyzer` (driftAnalyzer.ts) -/

/-- JS `Math.round` on a finite value: round half toward positive
infinity, i.e. `⌊x + 1/2⌋`. -/
def jsRound (q : ℚ) : ℤ :=
  Int.floor (q + 1 / 2)

/-- The method `DriftAnalyzer.calculateComplianceScore`, parametrized by the counts
the function derives from its arguments: `totalFiles` is
`components.length + styles.length + templates.length`,
`filesWithViolations` the number of distinct violation file paths, and
`errors`/`warnings` the severity counts.  The arithmetic is exact-rational;
at every input where a claim below is decided the JS double computation is
exact (the values involved are dyadic), so the model and the JS code agree
there. -/
def calculateComplianceScore (totalFiles filesWithViolations errors warnings : ℕ) : ℕ :=
  if totalFiles = 0 then 100
  else
    let violationRate : ℚ := (filesWithViolations : ℚ) / (totalFiles : ℚ)
    let score : ℚ := 100 * (1 - violationRate) - errors * 5 - warnings * 2
    (max 0 (jsRound score)).toNat

/-- The score formula exactly as the specification words it: `100 −
5×errorCount − 2×warningCount − round(100×filesWithViolations/totalFiles)`,
clamped to `[0,100]`, with `round` the usual round-half-up.  (Refinement
reference only — written from the spec, not from the source.) -/
def specClaimedScore (totalFiles filesWithViolations errors warnings : ℕ) : ℕ :=
  if totalFiles = 0 then 100
  else
    (min 100 (max 0 (100 - 5 * (errors : ℤ) - 2 * (warnings : ℤ) -
      jsRound ((100 * filesWithViolations : ℚ) / (totalFiles : ℚ))))).toNat

/-- The `ComponentInfo` record restricted to the fields `detectComponentDuplication`
reads. -/
structure ComponentInfoE where
  name : String
  filePath : String
  success : Bool
deriving DecidableEq

/-- The `DriftViolation` record. -/
structure DriftViolationE where
  type : String
  severity : String
  filePath : String
  message : String
  suggestedFix : String
deriving DecidableEq

/-- The `rules` table of `GuruConfig` (rule name to
`error`/`warning`/`off`). -/
structure GuruConfigE where
  rules : List (String × String)

/-- The `DriftAnalyzer.getSeverity` method. -/
def getSeverity (cfg : GuruConfigE) (ruleName : String) : String :=
  let severity := (mapGet cfg.rules ruleName).getD "warning"
  if severity = "off" then "info" else severity

/-- Character-list substring test, the semantics of JS
`String.prototype.includes`. -/
def charsIncl (pat : List Char) : List Char → Bool
  | [] => pat.isEmpty
  | c :: t => pat.isPrefixOf (c :: t) || charsIncl pat t

/-- JS `haystack.includes(needle)`. -/
def strIncludes (s pat : String) : Bool :=
  charsIncl pat.data s.data

/-- JS `String.prototype.toLowerCase`, character by character (component
names are ASCII). -/
def strToLower (s : String) : String :=
  String.mk (s.data.map Char.toLower)

/-- The grouping loop of `detectComponentDuplication`: successful
components grouped by lowercased name, in encounter order. -/
def componentMapOf (components : List ComponentInfoE) :
    List (String × List ComponentInfoE) :=
  components.foldl (fun m c =>
    if c.success then
      match mapGet m (strToLower c.name) with
      | some l => mapSet m (strToLower c.name) (l ++ [c])
      | none => m ++ [(strToLower c.name, [c])]
    else m) []

/-- The `commonPatterns` array of `detectComponentDuplication`. -/
def commonPatterns : List String :=
  ["button", "card", "modal", "dropdown", "tab", "form"]

/-- The violation pushed by `detectComponentDuplication`, message and
suggested fix verbatim. -/
def duplicationViolation (cfg : GuruConfigE) (c : ComponentInfoE)
    (pat : String) : DriftViolationE :=
  { type := "component-duplication"
    severity := getSeverity cfg "component-duplication"
    filePath := c.filePath
    message := "Component \"" ++ c.name ++ "\" appears to be a variation of \"" ++
      pat ++ "\". Consider using the existing " ++ pat ++
      " component with props/variants."
    suggestedFix := "Use the existing " ++ pat ++
      " component and extend it with props or composition" }

/-- The `DriftAnalyzer.detectComponentDuplication` method. -/
def detectComponentDuplication (cfg : GuruConfigE)
    (components : List ComponentInfoE) : List DriftViolationE :=
  let componentMap := componentMapOf components
  components.foldl (fun acc c =>
    if c.success then
      commonPatterns.foldl (fun acc2 pat =>
        if strIncludes (strToLower c.name) pat && strToLower c.name != pat then
          match mapGet componentMap pat with
          | some l => if 0 < l.length then acc2 ++ [duplicationViolation cfg c pat] else acc2
          | none => acc2
        else acc2) acc
    else acc) []

/-! ## `AnalysisStream` (src/streaming/analysisStream.ts) -/

/-- The `StreamingAnalysisOptions` record: all fields except `projectPath` are
optional. -/
structure StreamingAnalysisOptionsE where
  projectPath : String
  enableRealTimeReports : Option Bool
  reportUpdateInterval : Option Nat
  maxStreamHistory : Option Nat
  enableMetrics : Option Bool

/-- The option record after the constructor spreads the supplied options
over the defaults. -/
structure ResolvedStreamOptionsE where
  projectPath : String
  enableRealTimeReports : Bool
  reportUpdateInterval : Nat
  maxStreamHistory : Nat
  enableMetrics : Bool
deriving DecidableEq

/-- The defaulting performed by the `AnalysisStream` constructor. -/
def resolveStreamOptions (o : StreamingAnalysisOptionsE) : ResolvedStreamOptionsE :=
  { projectPath := o.projectPath
    enableRealTimeReports := o.enableRealTimeReports.getD true
    reportUpdateInterval := o.reportUpdateInterval.getD 5000
    maxStreamHistory := o.maxStreamHistory.getD 1000
    enableMetrics := o.enableMetrics.getD true }

/-- One metrics sample of `ComplianceMetrics` (the numeric fields the
history stores). -/
structure ComplianceMetricsE where
  timestamp : Nat
  score : Nat
  violationCount : Nat
  errorCount : Nat
  warningCount : Nat
deriving DecidableEq

/-- The history maintenance of `AnalysisStream.updateMetrics`:
`metricsHistory.push(sample)` followed by a single `shift()` when the
length exceeds `maxStreamHistory`. -/
def pushMetrics (maxStreamHistory : Nat) (history : List ComplianceMetricsE)
    (m : ComplianceMetricsE) : List ComplianceMetricsE :=
  let h := history ++ [m]
  if maxStreamHistory < h.length then h.tail else h

/-! ## `FileWatcher` debouncing (src/watcher/fileWatcher.ts) -/

/-- The debounce bookkeeping of `FileWatcher`: the `pendingChanges` set,
the `debounceTimers` map (path to the absolute time at which its pending
`setTimeout` fires) and the configured `debounceMs`. -/
structure WatcherStateE where
  pendingChanges : List String
  debounceTimers : List (String × Nat)
  debounceMs : Nat
deriving DecidableEq

/-- The `handleFileChange` handler for a raw event on `p` at time `now`: the existing
timer for `p` is cleared, `p` joins the pending set, and a fresh timer is
armed for `now + debounceMs`. -/
def handleFileChange (st : WatcherStateE) (p : String) (now : Nat) : WatcherStateE :=
  { st with
    pendingChanges := setAdd st.pendingChanges p
    debounceTimers := mapSet st.debounceTimers p (now + st.debounceMs) }

/-- The timer of `p` fires: the callback removes the timer and calls
`processPendingChanges`, which returns without a batch when nothing is
pending and otherwise drains the whole pending set as one batch. -/
def fireTimer (st : WatcherStateE) (p : String) : WatcherStateE × Option (List String) :=
  let st1 := { st with debounceTimers := mapDelete st.debounceTimers p }
  if st1.pendingChanges.isEmpty then (st1, none)
  else ({ st1 with pendingChanges := [] }, some st1.pendingChanges)

/-- A timed watcher event: a raw filesystem event on a path, or the expiry
of a path's debounce timer. -/
inductive WatcherEventE where
  | raw (now : Nat) (p : String)
  | expire (now : Nat) (p : String)
deriving DecidableEq

/-- Interpret a list of timed events, collecting each emitted batch with
its time. -/
def runWatcher (st : WatcherStateE) (evs : List WatcherEventE) :
    WatcherStateE × List (Nat × List String) :=
  evs.foldl (fun acc ev =>
    match ev with
    | WatcherEventE.raw now p => (handleFileChange acc.1 p now, acc.2)
    | WatcherEventE.expire now p =>
      let res := fireTimer acc.1 p
      (res.1, match res.2 with
              | some b => acc.2 ++ [(now, b)]
              | none => acc.2)) (st, [])

theorem setAdd_nodup (s : List String) (x : String) (h : s.Nodup) :
    (setAdd s x).Nodup := by
  unfold setAdd
  by_cases hc : x ∈ s
  · rw [if_pos hc]; exact h
  · rw [if_neg hc]
    simp [List.nodup_append, h, hc]

/-! ### Remaining support lemmas -/

theorem cleanupCache_noop (st : AnalyzerStateE)
    (h : memoryUsage st.analysisCache ≤ st.maxCacheSize) : cleanupCache st = st := by
  unfold cleanupCache
  rw [if_neg (by omega)]

theorem runBatch_cons (env : FsEnv) (acc : AnalyzerStateE × List AnalysisChangeE)
    (p : String) (rest : List String) :
    runBatch env acc (p :: rest) = runBatch env (processOne env acc.1 acc.2 p) rest := by
  unfold runBatch
  simp only [List.foldl_cons]

theorem runBatch_append (env : FsEnv) (acc : AnalyzerStateE × List AnalysisChangeE)
    (l₁ l₂ : List String) :
    runBatch env acc (l₁ ++ l₂) = runBatch env (runBatch env acc l₁) l₂ := by
  unfold runBatch
  exact List.foldl_append ..

theorem mapGet_none_not_mem_keys {α : Type} (m : List (String × α)) (k : String)
    (h : mapGet m k = none) : k ∉ m.map Prod.fst := by
  induction m with
  | nil => simp
  | cons e m ih =>
    by_cases he : e.1 = k
    · simp [mapGet, he] at h
    · simp only [mapGet, if_neg he] at h
      simp only [List.map_cons, List.mem_cons]
      rintro (rfl | hm)
      · exact he rfl
      · exact ih h hm

theorem mapGet_eq_of_mem_nodup {α : Type} (m : List (String × α)) (k : String) (v : α)
    (hnod : nodupKeys m) (h : (k, v) ∈ m) : mapGet m k = some v := by
  induction m with
  | nil => cases h
  | cons e m ih =>
    unfold nodupKeys at hnod
    simp only [List.map_cons, List.nodup_cons] at hnod
    rcases List.mem_cons.mp h with rfl | hm
    · simp [mapGet]
    · have hne : e.1 ≠ k := by
        intro hc
        exact hnod.1 (hc ▸ List.mem_map_of_mem Prod.fst hm)
      simp only [mapGet, if_neg hne]
      exact ih hnod.2 hm

theorem keys_clearDependent_sublist (g : List (String × List String)) (p : String) :
    ((clearDependent g p).map Prod.fst).Sublist (g.map Prod.fst) := by
  induction g with
  | nil => simp [clearDependent]
  | cons e g ih =>
    rw [clearDependent_cons]
    by_cases hne : (setDelete e.2 p).isEmpty
    · rw [if_pos hne]
      simp only [List.map_cons]
      exact ih.cons _
    · rw [if_neg hne]
      simp only [List.map_cons]
      exact ih.cons₂ _

theorem nodupKeys_clearDependent (g : List (String × List String)) (p : String)
    (h : nodupKeys g) : nodupKeys (clearDependent g p) :=
  (keys_clearDependent_sublist g p).nodup h

theorem nodupKeys_addDependencyEdges (deps : List String)
    (g : List (String × List String)) (p : String) (h : nodupKeys g) :
    nodupKeys (addDependencyEdges g deps p) := by
  induction deps generalizing g with
  | nil => exact h
  | cons dep rest ih =>
    simp only [addDependencyEdges, List.foldl_cons]
    cases hget : mapGet g dep with
    | some s =>
      have := nodupKeys_mapSet g dep (setAdd s p) h
      simpa [addDependencyEdges] using ih _ this
    | none =>
      have hnotin : dep ∉ g.map Prod.fst := mapGet_none_not_mem_keys _ _ hget
      have hnew : nodupKeys (g ++ [(dep, [p])]) := by
        unfold nodupKeys at h ⊢
        simp [List.nodup_append, h, hnotin]
      simpa [addDependencyEdges] using ih _ hnew

theorem nodupKeys_updateDependencyGraph (g : List (String × List String)) (p : String)
    (r : AnalysisResultE) (h : nodupKeys g) :
    nodupKeys (updateDependencyGraph g p r) :=
  nodupKeys_addDependencyEdges _ _ _ (nodupKeys_clearDependent g p h)

/-- With unique keys, a path appearing among dependents after an update for
`q` was already a dependent before, or is `q` itself. -/
theorem mem_dependentsOf_update_bound (g : List (String × List String))
    (q k x : String) (r : AnalysisResultE) (hnod : nodupKeys g)
    (h : x ∈ dependentsOf (updateDependencyGraph g q r) k) :
    x ∈ dependentsOf g k ∨ x = q := by
  unfold dependentsOf at h
  cases hget : mapGet (updateDependencyGraph g q r) k with
  | none => rw [hget] at h; cases h
  | some s =>
    rw [hget] at h
    simp only [Option.getD_some] at h
    have hmem := mapGet_some_mem _ _ _ hget
    rcases mem_addDependencyEdges _ _ _ _ _ _ hmem h with ⟨s₀, hs₀, hxs₀⟩ | ⟨rfl, _⟩
    · rcases mem_clearDependent _ _ _ _ hs₀ with ⟨s₁, hs₁, rfl⟩
      have hx1 : x ∈ s₁ := ((mem_setDelete_iff _ _ _).mp hxs₀).1
      left
      unfold dependentsOf
      rw [mapGet_eq_of_mem_nodup _ _ _ hnod hs₁]
      exact hx1
    · exact Or.inr rfl

/-! ## Claim theorems -/

/-- An analyzer fresh from the constructor (256 MB default budget). -/
def emptyAnalyzerState : AnalyzerStateE :=
  { fileHashes := []
    analysisCache := []
    dependencyGraph := []
    maxCacheSize := 268435456
    now := 0 }

theorem hashUnchanged_true (env : FsEnv) (st : AnalyzerStateE) (p : String)
    (fh : FileHashE) (hstored : mapGet st.fileHashes p = some fh)
    (hsame : env.contentHash p = fh.hash) : hashUnchanged env st p = true := by
  unfold hashUnchanged
  rw [hstored]
  exact beq_iff_eq.mpr hsame

/-- C3: when the current content hash of an existing path equals its stored
hash, the per-path step of `analyzeChangedFiles` writes nothing, updates no
hash, emits no change — whatever the mtime is — and the whole call on a
batch starting with such a path behaves as if the path were absent. -/
theorem C3_unchanged_content_idempotent (env : FsEnv) (mt : String → Nat)
    (st : AnalyzerStateE) (changes : List AnalysisChangeE) (p : String)
    (rest : List String) (fh : FileHashE)
    (hex : env.pathExists p = true)
    (hstored : mapGet st.fileHashes p = some fh)
    (hsame : env.contentHash p = fh.hash) :
    processOne env st changes p = (st, changes) ∧
    processOne { env with mtimeMs := mt } st changes p = (st, changes) ∧
    analyzeChangedFiles env st (p :: rest) = analyzeChangedFiles env st rest := by
  have hunch : hashUnchanged env st p = true := hashUnchanged_true env st p fh hstored hsame
  have hunch2 : hashUnchanged { env with mtimeMs := mt } st p = true :=
    hashUnchanged_true _ st p fh hstored hsame
  refine ⟨processOne_skip env st changes p hex hunch,
    processOne_skip _ st changes p hex hunch2, ?_⟩
  unfold analyzeChangedFiles
  rw [runBatch_cons]
  rw [processOne_skip env st ([] : List AnalysisChangeE) p hex hunch]

def envUnchangedW : FsEnv :=
  { pathExists := fun _ => true
    contentHash := fun _ => 5
    mtimeMs := fun _ => 111
    fileSize := fun _ => 3
    analyze := fun _ => none }

def stUnchangedW : AnalyzerStateE :=
  { fileHashes := [("x.ts", { filePath := "x.ts", hash := 5, timestamp := 0, size := 3 })]
    analysisCache := []
    dependencyGraph := []
    maxCacheSize := 100
    now := 0 }

theorem C3_witness :
    envUnchangedW.pathExists "x.ts" = true ∧
    mapGet stUnchangedW.fileHashes "x.ts" =
      some { filePath := "x.ts", hash := 5, timestamp := 0, size := 3 } ∧
    envUnchangedW.contentHash "x.ts" = 5 ∧
    (processOne envUnchangedW stUnchangedW [] "x.ts" = (stUnchangedW, []) ∧
     processOne { envUnchangedW with mtimeMs := fun _ => 222 } stUnchangedW [] "x.ts" =
       (stUnchangedW, []) ∧
     analyzeChangedFiles envUnchangedW stUnchangedW ["x.ts", "y.css"] =
       analyzeChangedFiles envUnchangedW stUnchangedW ["y.css"]) :=
  ⟨rfl, by decide, rfl,
   C3_unchanged_content_idempotent envUnchangedW (fun _ => 222) stUnchangedW [] "x.ts"
     ["y.css"] { filePath := "x.ts", hash := 5, timestamp := 0, size := 3 }
     rfl (by decide) rfl⟩

/-- C7: on extractor failure for an existing changed path, the per-path
step neither writes a cache entry nor updates the hash nor emits a change
(any previous entry stays), and the batch continues exactly as if the path
were absent — one file's failure never aborts the batch. -/
theorem C7_extractor_failure_no_write (env : FsEnv) (st : AnalyzerStateE)
    (changes : List AnalysisChangeE) (p : String) (rest : List String)
    (hex : env.pathExists p = true)
    (hch : hashUnchanged env st p = false)
    (hfail : env.analyze p = none) :
    processOne env st changes p = (st, changes) ∧
    analyzeChangedFiles env st (p :: rest) = analyzeChangedFiles env st rest := by
  refine ⟨processOne_fail env st changes p hex hch hfail, ?_⟩
  unfold analyzeChangedFiles
  rw [runBatch_cons]
  rw [processOne_fail env st ([] : List AnalysisChangeE) p hex hch hfail]

def envFailW : FsEnv :=
  { pathExists := fun _ => true
    contentHash := fun _ => 9
    mtimeMs := fun _ => 0
    fileSize := fun _ => 4
    analyze := fun _ => none }

def stFailW : AnalyzerStateE :=
  { fileHashes := [("x.ts", { filePath := "x.ts", hash := 5, timestamp := 0, size := 3 })]
    analysisCache := [("x.ts",
      { filePath := "x.ts", result := { deps := [], jsonLen := 2, tag := 7 }
        hash := 5, timestamp := 0, dependencies := [] })]
    dependencyGraph := []
    maxCacheSize := 100
    now := 1 }

theorem C7_witness :
    envFailW.pathExists "x.ts" = true ∧
    hashUnchanged envFailW stFailW "x.ts" = false ∧
    envFailW.analyze "x.ts" = none ∧
    (processOne envFailW stFailW [] "x.ts" = (stFailW, []) ∧
     analyzeChangedFiles envFailW stFailW ["x.ts", "y.css"] =
       analyzeChangedFiles envFailW stFailW ["y.css"]) :=
  ⟨rfl, by decide, rfl,
   C7_extractor_failure_no_write envFailW stFailW [] "x.ts" ["y.css"] rfl (by decide) rfl⟩

/-- C2 counterexample: at `totalFiles = 8`, `filesWithViolations = 1` and no
errors or warnings, the code rounds the whole expression once
(`Math.round(100·(1 − 1/8)) = Math.round(87.5) = 88`, half toward `+∞`)
while the spec formula `100 − round(100·1/8) = 100 − round(12.5) = 87`
rounds the ratio term on its own; the two differ at this input.  All
intermediate doubles here (`0.125`, `0.875`, `87.5`, `12.5`) are dyadic, so
the JS computation is exact and matches the rational model. -/
theorem C2_counterexample :
    calculateComplianceScore 8 1 0 0 = 88 ∧ specClaimedScore 8 1 0 0 = 87 := by
  constructor
  · unfold calculateComplianceScore jsRound
    norm_num
    rfl
  · unfold specClaimedScore jsRound
    norm_num
    rfl

/-- C2 amended: for `totalFiles > 0` the score equals
`max 0 (100 − 5·errors − 2·warnings − ⌈100·f/t − 1/2⌉)` — a single
rounding of the whole expression, which rounds the ratio term to nearest
with exact halves rounded *down* rather than up; only the lower clamp at 0
is applied, the value never exceeds 100 anyway; and `totalFiles = 0` yields
100 regardless of the counts. -/
theorem C2_amended_score_formula (t f e w : ℕ) (ht : 0 < t) :
    calculateComplianceScore t f e w =
      (max 0 (100 - 5 * (e : ℤ) - 2 * (w : ℤ) -
        Int.ceil ((100 * f : ℚ) / (t : ℚ) - 1 / 2))).toNat ∧
    calculateComplianceScore 0 f e w = 100 ∧
    calculateComplianceScore t f e w ≤ 100 := by
  have htz : t ≠ 0 := Nat.pos_iff_ne_zero.mp ht
  have hform : calculateComplianceScore t f e w =
      (max 0 (100 - 5 * (e : ℤ) - 2 * (w : ℤ) -
        Int.ceil ((100 * f : ℚ) / (t : ℚ) - 1 / 2))).toNat := by
    unfold calculateComplianceScore jsRound
    rw [if_neg htz]
    show (0 ⊔ ⌊100 * (1 - (f : ℚ) / (t : ℚ)) - (e : ℚ) * 5 - (w : ℚ) * 2 + 1 / 2⌋).toNat = _
    have hkey : (100 * (1 - (f : ℚ) / (t : ℚ)) - (e : ℚ) * 5 - (w : ℚ) * 2 + 1 / 2)
        = ((100 - 5 * (e : ℤ) - 2 * (w : ℤ) : ℤ) : ℚ) +
          (1 / 2 - (100 * f : ℚ) / (t : ℚ)) := by
      push_cast
      ring
    rw [hkey, Int.floor_int_add]
    have hneg : (1 / 2 - (100 * f : ℚ) / (t : ℚ)) =
        -((100 * f : ℚ) / (t : ℚ) - 1 / 2) := by ring
    rw [hneg, Int.floor_neg, ← sub_eq_add_neg]
  refine ⟨hform, by unfold calculateComplianceScore; rw [if_pos rfl], ?_⟩
  rw [hform]
  have hceil : (0 : ℤ) ≤ Int.ceil ((100 * f : ℚ) / (t : ℚ) - 1 / 2) := by
    have hge : (-(1 / 2) : ℚ) ≤ (100 * f : ℚ) / (t : ℚ) - 1 / 2 := by
      have hfrac : (0 : ℚ) ≤ (100 * f : ℚ) / (t : ℚ) := by positivity
      linarith
    have := Int.ceil_le_ceil hge
    have hz : Int.ceil ((-(1 / 2) : ℚ)) = 0 := by norm_num
    omega
  have hle : max 0 (100 - 5 * (e : ℤ) - 2 * (w : ℤ) -
      Int.ceil ((100 * f : ℚ) / (t : ℚ) - 1 / 2)) ≤ 100 := by
    have he0 : (0 : ℤ) ≤ 5 * (e : ℤ) := by positivity
    have hw0 : (0 : ℤ) ≤ 2 * (w : ℤ) := by positivity
    omega
  omega

theorem C2_witness :
    0 < 8 ∧
    (calculateComplianceScore 8 1 2 3 =
      (max 0 (100 - 5 * ((2 : ℕ) : ℤ) - 2 * ((3 : ℕ) : ℤ) -
        Int.ceil ((100 * (1 : ℕ) : ℚ) / ((8 : ℕ) : ℚ) - 1 / 2))).toNat ∧
     calculateComplianceScore 0 1 2 3 = 100 ∧
     calculateComplianceScore 8 1 2 3 ≤ 100) :=
  ⟨by decide, C2_amended_score_formula 8 1 2 3 (by decide)⟩

theorem pushMetrics_length_le (N : ℕ) (h : List ComplianceMetricsE)
    (m : ComplianceMetricsE) (hlen : h.length ≤ N) :
    (pushMetrics N h m).length ≤ N := by
  unfold pushMetrics
  by_cases hc : N < (h ++ [m]).length
  · rw [if_pos hc]
    simp only [List.length_tail, List.length_append, List.length_singleton]
    simp only [List.length_append, List.length_singleton] at hc
    omega
  · rw [if_neg hc]
    simp only [List.length_append, List.length_singleton] at hc ⊢
    omega

theorem pushMetrics_drop_oldest (N : ℕ) (h : List ComplianceMetricsE)
    (m : ComplianceMetricsE) (hfull : h.length = N) (hpos : 0 < N) :
    pushMetrics N h m = h.tail ++ [m] := by
  unfold pushMetrics
  rw [if_pos (by simp [hfull])]
  cases h with
  | nil => simp at hfull; omega
  | cons a l => rfl

theorem pushMetrics_foldl_length_exact (N : ℕ) (samples : List ComplianceMetricsE) :
    ∀ h : List ComplianceMetricsE, h.length + samples.length ≤ N →
      (samples.foldl (pushMetrics N) h).length = h.length + samples.length := by
  induction samples with
  | nil => intro h _; simp
  | cons m rest ih =>
    intro h hle
    simp only [List.length_cons] at hle
    have hstep : pushMetrics N h m = h ++ [m] := by
      unfold pushMetrics
      rw [if_neg (by simp; omega)]
    simp only [List.foldl_cons, hstep]
    rw [ih (h ++ [m]) (by simp; omega)]
    simp [List.length_append]
    omega

def defaultStreamOptionsW : StreamingAnalysisOptionsE :=
  { projectPath := "/project"
    enableRealTimeReports := none
    reportUpdateInterval := none
    maxStreamHistory := none
    enableMetrics := none }

def sampleAt (i : ℕ) : ComplianceMetricsE :=
  { timestamp := i, score := 100, violationCount := 0, errorCount := 0, warningCount := 0 }

/-- C8 counterexample: the constructor default for `maxStreamHistory` is
1000, not 100 — with no option supplied, 101 processed results leave 101
samples in the history, exceeding the claimed default bound of 100. -/
theorem C8_counterexample :
    (resolveStreamOptions defaultStreamOptionsW).maxStreamHistory = 1000 ∧
    (((List.range 101).map sampleAt).foldl
      (pushMetrics (resolveStreamOptions defaultStreamOptionsW).maxStreamHistory)
      []).length = 101 ∧
    100 < 101 := by
  refine ⟨rfl, ?_, by omega⟩
  have h := pushMetrics_foldl_length_exact 1000 ((List.range 101).map sampleAt) []
    (by simp)
  simpa using h

/-- C8 amended: the metrics history is a bounded ring buffer — after any
sequence of processed results it holds at most the last `N` samples, where
`N` is the configurable `maxStreamHistory` whose default is 1000 (not
100); pushing onto a full history drops the oldest sample. -/
theorem C8_amended_ring_buffer :
    (∀ o : StreamingAnalysisOptionsE, o.maxStreamHistory = none →
      (resolveStreamOptions o).maxStreamHistory = 1000) ∧
    (∀ (N : ℕ) (history samples : List ComplianceMetricsE), history.length ≤ N →
      (samples.foldl (pushMetrics N) history).length ≤ N) ∧
    (∀ (N : ℕ) (history : List ComplianceMetricsE) (m : ComplianceMetricsE),
      history.length = N → 0 < N → pushMetrics N history m = history.tail ++ [m]) := by
  refine ⟨?_, ?_, ?_⟩
  · intro o ho
    unfold resolveStreamOptions
    rw [ho]
    rfl
  · intro N history samples
    induction samples generalizing history with
    | nil => intro h; simpa using h
    | cons m rest ih =>
      intro hlen
      simp only [List.foldl_cons]
      exact ih _ (pushMetrics_length_le N history m hlen)
  · exact pushMetrics_drop_oldest

theorem C8_witness :
    (resolveStreamOptions defaultStreamOptionsW).maxStreamHistory = 1000 ∧
    (((List.range 5).map sampleAt).foldl (pushMetrics 3) []).length ≤ 3 ∧
    pushMetrics 2 [sampleAt 0, sampleAt 1] (sampleAt 2) = [sampleAt 1, sampleAt 2] :=
  ⟨C8_amended_ring_buffer.1 defaultStreamOptionsW rfl,
   C8_amended_ring_buffer.2.1 3 ([] : List ComplianceMetricsE)
     ((List.range 5).map sampleAt) (by decide),
   by simpa using C8_amended_ring_buffer.2.2 2 ([sampleAt 0, sampleAt 1]) (sampleAt 2)
        (by decide) (by decide)⟩

/-- The C9 scenario: a `SubmitButton` component alongside an existing
`Button` component (both successfully parsed; the spec scenario's usage
count of 23 for `Button` plays no role in `detectComponentDuplication`,
which only checks that a base component exists). -/
def scenarioComponents : List ComponentInfoE :=
  [ { name := "SubmitButton", filePath := "src/components/SubmitButton.tsx", success := true },
    { name := "Button", filePath := "src/components/Button.tsx", success := true } ]

/-- A configuration with no per-rule severity overrides. -/
def defaultRulesConfig : GuruConfigE := { rules := [] }

/-- The one violation the scenario produces. -/
def scenarioDupMessage : String :=
  "Component \"SubmitButton\" appears to be a variation of \"button\". " ++
  "Consider using the existing button component with props/variants."

/-- C9 counterexample: the evaluator does emit exactly one
`component-duplication` violation for the scenario, but its message names
the lowercased pattern `button` as the preferred existing component — the
template phrase is `Consider using the existing <pattern> component`, so
the message never contains `existing Button component` with the actual
component name `Button`.  (The substring `Button` occurring inside
`SubmitButton` names the offending component, not the preferred one.) -/
theorem C9_counterexample :
    detectComponentDuplication defaultRulesConfig scenarioComponents =
      [{ type := "component-duplication"
         severity := "warning"
         filePath := "src/components/SubmitButton.tsx"
         message := scenarioDupMessage
         suggestedFix :=
           "Use the existing button component and extend it with props or composition" }] ∧
    strIncludes scenarioDupMessage "existing Button component" = false := by
  constructor
  · decide
  · decide

/-- C9 amended: the scenario yields exactly one violation, of type
`component-duplication`, and its message names the lowercase common
pattern `button` (not the component name `Button`) as the preferred
existing component. -/
theorem C9_amended_lowercase_pattern :
    detectComponentDuplication defaultRulesConfig scenarioComponents =
      [duplicationViolation defaultRulesConfig
        { name := "SubmitButton", filePath := "src/components/SubmitButton.tsx", success := true }
        "button"] ∧
    (detectComponentDuplication defaultRulesConfig scenarioComponents).length = 1 ∧
    strIncludes scenarioDupMessage "existing button component" = true := by
  refine ⟨by decide, by decide, by decide⟩

/-- A watch session freshly started with the default 300 ms debounce. -/
def watcherStart : WatcherStateE :=
  { pendingChanges := [], debounceTimers := [], debounceMs := 300 }

/-- The C10 trace: raw events on `a.tsx` at t=0 and `b.tsx` at t=100, then
`a.tsx`'s timer fires at t=300 while `b.tsx`'s timer is still armed for
t=400. -/
def earlyDrainTrace : List WatcherEventE :=
  [WatcherEventE.raw 0 "a.tsx", WatcherEventE.raw 100 "b.tsx",
   WatcherEventE.expire 300 "a.tsx"]

/-- C10: when any one path's debounce timer fires, `processPendingChanges`
drains the whole pending set as a single batch — paths whose own timers
have not elapsed included — and clears the set; repeated raw events on a
path keep the pending set duplicate-free, so a batch holds at most one
entry per path.  The concrete trace shows `b.tsx` being delivered at t=300
although its own timer is armed for t=400. -/
theorem C10_timer_drains_whole_pending_set :
    (∀ (st : WatcherStateE) (p : String), st.pendingChanges ≠ [] →
      (fireTimer st p).2 = some st.pendingChanges ∧
      (fireTimer st p).1.pendingChanges = []) ∧
    (∀ (st : WatcherStateE) (p : String) (now : ℕ),
      st.pendingChanges.Nodup → ((handleFileChange st p now).pendingChanges).Nodup) ∧
    (∀ (st : WatcherStateE) (p q : String) (b : List String),
      st.pendingChanges.Nodup → (fireTimer st p).2 = some b → b.count q ≤ 1) ∧
    (mapGet (runWatcher watcherStart
        [WatcherEventE.raw 0 "a.tsx", WatcherEventE.raw 100 "b.tsx"]).1.debounceTimers
        "a.tsx" = some 300 ∧
     mapGet (runWatcher watcherStart
        [WatcherEventE.raw 0 "a.tsx", WatcherEventE.raw 100 "b.tsx"]).1.debounceTimers
        "b.tsx" = some 400 ∧
     (runWatcher watcherStart earlyDrainTrace).2 = [(300, ["a.tsx", "b.tsx"])] ∧
     (runWatcher watcherStart earlyDrainTrace).1.pendingChanges = [] ∧
     300 < 400) ∧
    (runWatcher watcherStart
      [WatcherEventE.raw 0 "a.tsx", WatcherEventE.raw 50 "a.tsx",
       WatcherEventE.raw 100 "a.tsx", WatcherEventE.expire 400 "a.tsx"]).2 =
      [(400, ["a.tsx"])] := by
  refine ⟨?_, ?_, ?_, ⟨by decide, by decide, by decide, by decide, by omega⟩, by decide⟩
  · intro st p hne
    have hempty : st.pendingChanges.isEmpty = false := by
      cases h : st.pendingChanges with
      | nil => exact absurd h hne
      | cons a l => rfl
    unfold fireTimer
    rw [if_neg (by simp [hempty])]
    exact ⟨rfl, rfl⟩
  · intro st p now hnod
    exact setAdd_nodup _ _ hnod
  · intro st p q b hnod hfire
    unfold fireTimer at hfire
    by_cases hempty : st.pendingChanges.isEmpty
    · rw [if_pos (by simpa using hempty)] at hfire
      cases hfire
    · rw [if_neg (by simpa using hempty)] at hfire
      have hb : b = st.pendingChanges := by
        injection hfire with h
        exact h.symm
      rw [hb]
      exact List.nodup_iff_count_le_one.mp hnod q

theorem C10_witness :
    (fireTimer { pendingChanges := ["x.ts"], debounceTimers := [("x.ts", 300)]
                 debounceMs := 300 } "x.ts").2 = some ["x.ts"] ∧
    (handleFileChange watcherStart "x.ts" 0).pendingChanges.Nodup ∧
    (["a.tsx", "b.tsx"] : List String).count "a.tsx" ≤ 1 :=
  ⟨(C10_timer_drains_whole_pending_set.1
      { pendingChanges := ["x.ts"], debounceTimers := [("x.ts", 300)], debounceMs := 300 }
      "x.ts" (by decide)).1,
   C10_timer_drains_whole_pending_set.2.1 watcherStart "x.ts" 0 (by decide),
   C10_timer_drains_whole_pending_set.2.2.1
     { pendingChanges := ["a.tsx", "b.tsx"], debounceTimers := [("a.tsx", 300)]
       debounceMs := 300 }
     "a.tsx" "a.tsx" (["a.tsx", "b.tsx"]) (by decide) (by decide)⟩

theorem mapGet_none_foldl_mapDelete {α : Type} (l : List String)
    (m : List (String × α)) (k : String) (h : mapGet m k = none) :
    mapGet (l.foldl (fun c d => mapDelete c d) m) k = none := by
  induction l generalizing m with
  | nil => exact h
  | cons d l ih =>
    simp only [List.foldl_cons]
    exact ih _ (mapGet_none_mapDelete _ _ _ h)

def resBW : AnalysisResultE := { deps := ["a.ts"], jsonLen := 10, tag := 1 }

def entryBW : CachedAnalysisE :=
  { filePath := "b.ts", result := resBW, hash := 1, timestamp := 0, dependencies := ["a.ts"] }

/-- State where `b.ts` is cached (declaring a dependency on `a.ts`, hence the edge
`a.ts → b.ts`), `c.ts` declares a dependency on `b.ts` (edge
`b.ts → c.ts`), and `b.ts` is deleted from disk. -/
def stDeleteW : AnalyzerStateE :=
  { fileHashes := [("b.ts", { filePath := "b.ts", hash := 1, timestamp := 0, size := 10 })]
    analysisCache :=
      [("b.ts", entryBW),
       ("c.ts", { filePath := "c.ts", result := { deps := ["b.ts"], jsonLen := 5, tag := 3 }
                  hash := 7, timestamp := 1, dependencies := ["b.ts"] })]
    dependencyGraph := [("a.ts", ["b.ts"]), ("b.ts", ["c.ts"])]
    maxCacheSize := 268435456
    now := 2 }

def envDeleteW : FsEnv :=
  { pathExists := fun _ => false
    contentHash := fun _ => 0
    mtimeMs := fun _ => 0
    fileSize := fun _ => 0
    analyze := fun _ => none }

/-- C6 counterexample: deleting cached `b.ts` emits the `deleted` change,
but the dependency graph is returned unchanged — neither the edge
`a.ts → [b.ts]` nor the key `b.ts → [c.ts]` is removed, contradicting the
claim that the path's dependency-graph edges are removed; and a nonexistent
path with no cached entry emits no change at all (and keeps its stale
hash), contradicting the claim's unconditional single `deleted` change. -/
theorem C6_counterexample :
    envDeleteW.pathExists "b.ts" = false ∧
    (analyzeChangedFiles envDeleteW stDeleteW ["b.ts"]).2 =
      [{ type := ChangeTypeE.deleted, filePath := "b.ts", result := none
         oldResult := some resBW }] ∧
    (analyzeChangedFiles envDeleteW stDeleteW ["b.ts"]).1.dependencyGraph =
      [("a.ts", ["b.ts"]), ("b.ts", ["c.ts"])] ∧
    (analyzeChangedFiles envDeleteW
      { stDeleteW with analysisCache := [] } ["b.ts"]).2 = [] ∧
    mapGet (analyzeChangedFiles envDeleteW
      { stDeleteW with analysisCache := [] } ["b.ts"]).1.fileHashes "b.ts" =
      some { filePath := "b.ts", hash := 1, timestamp := 0, size := 10 } := by
  refine ⟨rfl, by decide, by decide, by decide, by decide⟩

/-- C6 amended: for a nonexistent path, the step emits exactly one
`deleted` change carrying the old facts and removes the path's hash and
cache entry — but only when a cache entry exists (otherwise the step is a
complete no-op, stale hash included); the dependency graph is left intact,
and the cache entries of the path's direct dependents are removed as
invalidation. -/
theorem C6_amended_deletion (env : FsEnv) (st : AnalyzerStateE)
    (changes : List AnalysisChangeE) (p : String)
    (hex : env.pathExists p = false) :
    (mapGet st.analysisCache p = none → processOne env st changes p = (st, changes)) ∧
    (∀ cached, mapGet st.analysisCache p = some cached →
      (processOne env st changes p).2 =
        changes ++ [{ type := ChangeTypeE.deleted, filePath := p, result := none
                      oldResult := some cached.result }] ∧
      mapGet (processOne env st changes p).1.fileHashes p = none ∧
      mapGet (processOne env st changes p).1.analysisCache p = none ∧
      (processOne env st changes p).1.dependencyGraph = st.dependencyGraph ∧
      (∀ d ∈ dependentsOf st.dependencyGraph p,
        mapGet (processOne env st changes p).1.analysisCache d = none)) := by
  constructor
  · intro hnone
    exact processOne_deleted_none env st changes p hex hnone
  · intro cached hsome
    rw [processOne_deleted_some env st changes p cached hex hsome]
    set st1 : AnalyzerStateE :=
      { st with fileHashes := mapDelete st.fileHashes p
                analysisCache := mapDelete st.analysisCache p } with hst1
    refine ⟨rfl, ?_, ?_, ?_, ?_⟩
    · rw [invalidateDependents_fileHashes]
      exact mapGet_mapDelete_self ..
    · show mapGet (invalidateDependents st1 p).analysisCache p = none
      unfold invalidateDependents
      cases hget : mapGet st1.dependencyGraph p with
      | none => exact mapGet_mapDelete_self ..
      | some dependents =>
        exact mapGet_none_foldl_mapDelete _ _ _ (mapGet_mapDelete_self ..)
    · rw [invalidateDependents_dependencyGraph]
    · intro d hd
      show mapGet (invalidateDependents st1 p).analysisCache d = none
      unfold invalidateDependents
      unfold dependentsOf at hd
      cases hget : mapGet st1.dependencyGraph p with
      | none =>
        have : mapGet st.dependencyGraph p = none := hget
        rw [this] at hd
        cases hd
      | some dependents =>
        have : mapGet st.dependencyGraph p = some dependents := hget
        rw [this] at hd
        simp only [Option.getD_some] at hd
        exact mapGet_foldl_mapDelete_mem _ _ _ hd

theorem C6_witness :
    envDeleteW.pathExists "b.ts" = false ∧
    mapGet stDeleteW.analysisCache "b.ts" = some entryBW ∧
    ((processOne envDeleteW stDeleteW [] "b.ts").2 =
      [{ type := ChangeTypeE.deleted, filePath := "b.ts", result := none
         oldResult := some resBW }] ∧
     mapGet (processOne envDeleteW stDeleteW [] "b.ts").1.analysisCache "b.ts" = none ∧
     mapGet (processOne envDeleteW stDeleteW [] "b.ts").1.analysisCache "c.ts" = none) :=
  ⟨rfl, by decide,
   by simpa using
     ((C6_amended_deletion envDeleteW stDeleteW [] "b.ts" rfl).2 entryBW (by decide)).1,
   ((C6_amended_deletion envDeleteW stDeleteW [] "b.ts" rfl).2 entryBW (by decide)).2.2.1,
   ((C6_amended_deletion envDeleteW stDeleteW [] "b.ts" rfl).2 entryBW
     (by decide)).2.2.2.2 "c.ts" (by decide)⟩

/-- C4: if the dependency graph (maintained from the cached entries'
declared dependencies) lists `B` as a direct dependent of `A`, then a
successful re-analysis of `A` removes `B`'s cache entry; and the removal is
single-hop: any `C` that is not a direct dependent of `A` (for instance one
depending only on `B`) keeps its entry untouched.  The final conjunct
extends both statements to the full `analyzeChangedFiles` call provided the
cleanup pass is not triggered. -/
theorem C4_invalidation_single_hop (env : FsEnv) (st : AnalyzerStateE)
    (A B C : String) (r : AnalysisResultE) (stAfter : AnalyzerStateE)
    (ch : List AnalysisChangeE)
    (hnodg : nodupKeys st.dependencyGraph)
    (hex : env.pathExists A = true)
    (hch : hashUnchanged env st A = false)
    (hres : env.analyze A = some r)
    (hB : B ∈ dependentsOf st.dependencyGraph A)
    (hBA : B ≠ A)
    (hC : C ∉ dependentsOf st.dependencyGraph A)
    (hCA : C ≠ A)
    (hrun : processOne env st [] A = (stAfter, ch)) :
    mapGet stAfter.analysisCache B = none ∧
    mapGet stAfter.analysisCache C = mapGet st.analysisCache C ∧
    (memoryUsage stAfter.analysisCache ≤ st.maxCacheSize →
      analyzeChangedFiles env st [A] = (stAfter, ch)) := by
  rw [processOne_success env st [] A r hex hch hres] at hrun
  injection hrun with hst hchanges
  have hBafter : B ∈ dependentsOf (successState env st A r).dependencyGraph A := by
    show B ∈ dependentsOf (updateDependencyGraph st.dependencyGraph A r) A
    exact dependentsOf_update_mono _ _ _ _ _ hB hBA
  have hCafter : C ∉ dependentsOf (successState env st A r).dependencyGraph A := by
    intro hmem
    rcases mem_dependentsOf_update_bound st.dependencyGraph A A C r hnodg hmem with h | h
    · exact hC h
    · exact hCA h
  refine ⟨?_, ?_, ?_⟩
  · rw [← hst]
    unfold invalidateDependents
    cases hget : mapGet (successState env st A r).dependencyGraph A with
    | none =>
      unfold dependentsOf at hBafter
      rw [hget] at hBafter
      cases hBafter
    | some dset =>
      unfold dependentsOf at hBafter
      rw [hget] at hBafter
      simp only [Option.getD_some] at hBafter
      exact mapGet_foldl_mapDelete_mem _ _ _ hBafter
  · rw [← hst]
    have hCcache : mapGet (successState env st A r).analysisCache C =
        mapGet st.analysisCache C := by
      show mapGet (mapSet st.analysisCache A _) C = mapGet st.analysisCache C
      exact mapGet_mapSet_ne _ _ _ _ hCA
    unfold invalidateDependents
    cases hget : mapGet (successState env st A r).dependencyGraph A with
    | none => exact hCcache
    | some dset =>
      have hCd : C ∉ dset := by
        intro hmem
        apply hCafter
        unfold dependentsOf
        rw [hget]
        exact hmem
      rw [mapGet_foldl_mapDelete_not_mem _ _ _ hCd]
      exact hCcache
  · intro husage
    unfold analyzeChangedFiles
    rw [runBatch_cons]
    show (cleanupCache (runBatch env (processOne env st [] A) []).1, _) = (stAfter, ch)
    rw [processOne_success env st [] A r hex hch hres]
    unfold runBatch
    simp only [List.foldl_nil]
    rw [hst, hchanges]
    rw [cleanupCache_noop]
    have hmax : stAfter.maxCacheSize = st.maxCacheSize := by
      rw [← hst]
      rw [invalidateDependents_maxCacheSize]
      rfl
    rw [hmax]
    exact husage

def envC4W : FsEnv :=
  { pathExists := fun _ => true
    contentHash := fun _ => 42
    mtimeMs := fun _ => 7
    fileSize := fun _ => 3
    analyze := fun p =>
      if p = "a.ts" then some { deps := [], jsonLen := 4, tag := 9 } else none }

def stC4W : AnalyzerStateE :=
  { fileHashes := []
    analysisCache :=
      [("b.ts", { filePath := "b.ts", result := { deps := ["a.ts"], jsonLen := 6, tag := 1 }
                  hash := 1, timestamp := 0, dependencies := ["a.ts"] }),
       ("c.ts", { filePath := "c.ts", result := { deps := ["b.ts"], jsonLen := 6, tag := 2 }
                  hash := 2, timestamp := 1, dependencies := ["b.ts"] })]
    dependencyGraph := [("a.ts", ["b.ts"]), ("b.ts", ["c.ts"])]
    maxCacheSize := 268435456
    now := 5 }

theorem C4_witness :
    nodupKeys stC4W.dependencyGraph ∧
    envC4W.pathExists "a.ts" = true ∧
    hashUnchanged envC4W stC4W "a.ts" = false ∧
    envC4W.analyze "a.ts" = some { deps := [], jsonLen := 4, tag := 9 } ∧
    "b.ts" ∈ dependentsOf stC4W.dependencyGraph "a.ts" ∧
    "c.ts" ∉ dependentsOf stC4W.dependencyGraph "a.ts" ∧
    (mapGet (processOne envC4W stC4W [] "a.ts").1.analysisCache "b.ts" = none ∧
     mapGet (processOne envC4W stC4W [] "a.ts").1.analysisCache "c.ts" =
       mapGet stC4W.analysisCache "c.ts" ∧
     (memoryUsage (processOne envC4W stC4W [] "a.ts").1.analysisCache ≤
        stC4W.maxCacheSize →
      analyzeChangedFiles envC4W stC4W ["a.ts"] =
        ((processOne envC4W stC4W [] "a.ts").1, (processOne envC4W stC4W [] "a.ts").2))) :=
  ⟨by decide, rfl, by decide, by decide, by decide, by decide,
   C4_invalidation_single_hop envC4W stC4W "a.ts" "b.ts" "c.ts"
     { deps := [], jsonLen := 4, tag := 9 }
     (processOne envC4W stC4W [] "a.ts").1 (processOne envC4W stC4W [] "a.ts").2
     (by decide) rfl (by decide) (by decide) (by decide) (by decide) (by decide)
     (by decide) rfl⟩

/-- C5: after any `analyzeChangedFiles` call (any sequence of insertions
followed by the cleanup pass) the measured cache size is at most the
configured budget; the cleanup work list is sorted ascending by
`analyzedAt`; and when the pre-cleanup size exceeds the budget, the evicted
entries are a minimal prefix of that sorted list — eviction in ascending
`analyzedAt` order — leaving usage at or below 80% of the budget. -/
theorem C5_eviction_bound (env : FsEnv) (st : AnalyzerStateE) (paths : List String)
    (hnod : nodupKeys st.analysisCache) :
    memoryUsage ((analyzeChangedFiles env st paths).1.analysisCache) ≤ st.maxCacheSize ∧
    (sortByTs st.analysisCache).Pairwise (fun a b => a.2.timestamp ≤ b.2.timestamp) ∧
    (memoryUsage st.analysisCache > st.maxCacheSize →
      ∃ k, ((cleanupCache st).analysisCache).Perm ((sortByTs st.analysisCache).drop k) ∧
        5 * memoryUsage (cleanupCache st).analysisCache ≤ 4 * st.maxCacheSize ∧
        (∀ j, j < k →
          4 * st.maxCacheSize < 5 * memoryUsage ((sortByTs st.analysisCache).drop j))) := by
  refine ⟨?_, sortByTs_pairwise _, ?_⟩
  · unfold analyzeChangedFiles
    have hnod' : nodupKeys (runBatch env (st, []) paths).1.analysisCache :=
      runBatch_nodupKeys env paths st [] hnod
    have hle := cleanupCache_usage_le _ hnod'
    rwa [runBatch_maxCacheSize] at hle
  · intro htrig
    obtain ⟨k, _, hperm, hbound, hmin⟩ := cleanupCache_evicts_oldest_first st hnod htrig
    exact ⟨k, hperm, hbound, hmin⟩

/-- A cache over budget: usage 100 against a 70-byte budget, with the
older entry (`b.css`, analyzedAt 4) due for eviction first. -/
def stEvictW : AnalyzerStateE :=
  { fileHashes :=
      [("a.css", { filePath := "a.css", hash := 1, timestamp := 0, size := 1 }),
       ("b.css", { filePath := "b.css", hash := 2, timestamp := 0, size := 1 })]
    analysisCache :=
      [("a.css", { filePath := "a.css", result := { deps := [], jsonLen := 30, tag := 1 }
                   hash := 1, timestamp := 10, dependencies := [] }),
       ("b.css", { filePath := "b.css", result := { deps := [], jsonLen := 20, tag := 2 }
                   hash := 2, timestamp := 4, dependencies := [] })]
    dependencyGraph := []
    maxCacheSize := 70
    now := 11 }

theorem C5_witness :
    nodupKeys stEvictW.analysisCache ∧
    (memoryUsage ((analyzeChangedFiles envDeleteW stEvictW []).1.analysisCache) ≤
        stEvictW.maxCacheSize ∧
      (sortByTs stEvictW.analysisCache).Pairwise
        (fun a b => a.2.timestamp ≤ b.2.timestamp) ∧
      (memoryUsage stEvictW.analysisCache > stEvictW.maxCacheSize →
        ∃ k, ((cleanupCache stEvictW).analysisCache).Perm
            ((sortByTs stEvictW.analysisCache).drop k) ∧
          5 * memoryUsage (cleanupCache stEvictW).analysisCache ≤
            4 * stEvictW.maxCacheSize ∧
          (∀ j, j < k →
            4 * stEvictW.maxCacheSize <
              5 * memoryUsage ((sortByTs stEvictW.analysisCache).drop j)))) :=
  ⟨by decide, C5_eviction_bound envDeleteW stEvictW [] (by decide)⟩

/-- Environment where `b.ts` declares a dependency on `a.ts`; both change in one batch with
`b.ts` processed first. -/
def envC1 : FsEnv :=
  { pathExists := fun p => p == "b.ts" || p == "a.ts"
    contentHash := fun p => if p = "a.ts" then 2 else 1
    mtimeMs := fun _ => 0
    fileSize := fun _ => 10
    analyze := fun p =>
      if p = "b.ts" then some { deps := ["a.ts"], jsonLen := 10, tag := 1 }
      else if p = "a.ts" then some { deps := [], jsonLen := 10, tag := 2 }
      else none }

/-- C1 counterexample: in the batch `["b.ts", "a.ts"]` both files exist and
both extractors succeed (both changes are emitted), yet after the call the
cache holds no entry for `b.ts`: the later successful update of `a.ts`
invalidated the entry written for its dependent `b.ts` moments earlier in
the same call. -/
theorem C1_counterexample :
    envC1.pathExists "b.ts" = true ∧
    envC1.analyze "b.ts" = some { deps := ["a.ts"], jsonLen := 10, tag := 1 } ∧
    (analyzeChangedFiles envC1 emptyAnalyzerState ["b.ts", "a.ts"]).2 =
      [{ type := ChangeTypeE.added, filePath := "b.ts"
         result := some { deps := ["a.ts"], jsonLen := 10, tag := 1 }, oldResult := none },
       { type := ChangeTypeE.added, filePath := "a.ts"
         result := some { deps := [], jsonLen := 10, tag := 2 }, oldResult := none }] ∧
    mapGet (analyzeChangedFiles envC1 emptyAnalyzerState
      ["b.ts", "a.ts"]).1.analysisCache "b.ts" = none := by
  refine ⟨rfl, by decide, by decide, by decide⟩

/-- C1 amended: the guarantee holds for a successfully updated path `p`
provided the remaining caveats are excluded: `p`'s freshly declared
dependencies include neither `p` itself nor any path processed after `p`
in the same batch (otherwise `invalidateDependents` removes `p`'s new
entry), no later occurrence of `p` follows in the batch, and the cleanup
pass is not triggered (otherwise eviction may remove it).  Under those
conditions the returned cache binds `p` to an entry whose hash and facts
are the on-disk content hash and the extractor result of the call. -/
theorem C1_amended_guarantee (env : FsEnv) (st0 : AnalyzerStateE)
    (pre rest : List String) (p : String) (r : AnalysisResultE)
    (hex : env.pathExists p = true)
    (hch : hashUnchanged env (runBatch env (st0, []) pre).1 p = false)
    (hres : env.analyze p = some r)
    (hself : p ∉ r.deps)
    (hrest : ∀ q ∈ rest, q ≠ p ∧ q ∉ r.deps)
    (hclean : memoryUsage ((runBatch env (st0, [])
      (pre ++ p :: rest)).1.analysisCache) ≤ st0.maxCacheSize) :
    ∃ entry, mapGet ((analyzeChangedFiles env st0
        (pre ++ p :: rest)).1.analysisCache) p = some entry ∧
      entry.hash = env.contentHash p ∧
      entry.result = r ∧
      entry.dependencies = r.deps := by
  set mid := runBatch env (st0, []) pre with hmid
  have hproc := processOne_success env mid.1 mid.2 p r hex hch hres
  set stW := invalidateDependents (successState env mid.1 p r) p with hstW
  set entryV : CachedAnalysisE :=
    { filePath := p
      result := r
      hash := (calculateFileHash env p).hash
      timestamp := mid.1.now
      dependencies := extractDependencies r } with hentryV
  have hgOnly : graphOnly (successState env mid.1 p r).dependencyGraph p r.deps :=
    graphOnly_update_self mid.1.dependencyGraph p r
  have hnd : p ∉ dependentsOf (successState env mid.1 p r).dependencyGraph p := by
    intro hmem
    exact hself (graphOnly_dependentsOf _ _ _ hgOnly p hmem)
  have hintact : entryIntact stW p entryV (calculateFileHash env p) r.deps := by
    refine ⟨?_, ?_, ?_⟩
    · rw [hstW, invalidateDependents_analysisCache_of_not_dependent _ _ _ hnd]
      exact mapGet_mapSet_self ..
    · rw [hstW, invalidateDependents_fileHashes]
      exact mapGet_mapSet_self ..
    · rw [hstW, invalidateDependents_dependencyGraph]
      exact hgOnly
  have hbatch : runBatch env (st0, []) (pre ++ p :: rest) =
      runBatch env (stW,
        mid.2 ++ [{ type := if (mapGet mid.1.fileHashes p).isNone then ChangeTypeE.added
                            else ChangeTypeE.modified
                    filePath := p
                    result := some r
                    oldResult := (mapGet mid.1.analysisCache p).map
                      (fun c => c.result) }]) rest := by
    rw [runBatch_append, ← hmid, runBatch_cons, hproc]
  have hfinal := runBatch_preserves_intact env rest stW
    (mid.2 ++ [{ type := if (mapGet mid.1.fileHashes p).isNone then ChangeTypeE.added
                         else ChangeTypeE.modified
                 filePath := p
                 result := some r
                 oldResult := (mapGet mid.1.analysisCache p).map (fun c => c.result) }])
    p entryV (calculateFileHash env p) r.deps hrest hintact
  have hcache : mapGet ((runBatch env (st0, [])
      (pre ++ p :: rest)).1.analysisCache) p = some entryV := by
    rw [hbatch]
    exact hfinal.1
  have hmax : (runBatch env (st0, []) (pre ++ p :: rest)).1.maxCacheSize =
      st0.maxCacheSize := runBatch_maxCacheSize env (pre ++ p :: rest) st0 []
  refine ⟨entryV, ?_, rfl, rfl, rfl⟩
  show mapGet (cleanupCache (runBatch env (st0, [])
    (pre ++ p :: rest)).1).analysisCache p = some entryV
  rw [cleanupCache_noop _ (by rw [hmax]; exact hclean)]
  exact hcache

def envC1AW : FsEnv :=
  { pathExists := fun _ => true
    contentHash := fun p => if p = "b.ts" then 11 else 22
    mtimeMs := fun _ => 0
    fileSize := fun _ => 5
    analyze := fun p =>
      if p = "b.ts" then some { deps := ["lib.ts"], jsonLen := 8, tag := 1 }
      else if p = "c.css" then some { deps := [], jsonLen := 8, tag := 2 }
      else none }

theorem C1_witness :
    envC1AW.pathExists "b.ts" = true ∧
    hashUnchanged envC1AW (runBatch envC1AW (emptyAnalyzerState, []) []).1 "b.ts" = false ∧
    envC1AW.analyze "b.ts" = some { deps := ["lib.ts"], jsonLen := 8, tag := 1 } ∧
    (∃ entry, mapGet ((analyzeChangedFiles envC1AW emptyAnalyzerState
        ([] ++ "b.ts" :: ["c.css"])).1.analysisCache) "b.ts" = some entry ∧
      entry.hash = envC1AW.contentHash "b.ts" ∧
      entry.result = { deps := ["lib.ts"], jsonLen := 8, tag := 1 } ∧
      entry.dependencies = ["lib.ts"]) :=
  ⟨rfl, by decide, by decide,
   by simpa using C1_amended_guarantee envC1AW emptyAnalyzerState [] ["c.css"] "b.ts"
        { deps := ["lib.ts"], jsonLen := 8, tag := 1 }
        rfl (by decide) (by decide) (by decide) (by decide) (by decide)⟩
